import Mathlib

/-!
# Verification of the video2ascii pipeline

A shallow embedding, in Lean 4, of the pure computational core of the
video2ascii repository (converter, exporters, renderers, subtitle parser),
together with theorems settling the specification claims about it.

Conventions of the embedding:
* Python strings are embedded as `List Char`; Python byte strings as
  `List ℕ` with every entry `< 256`.
* Python `float` arithmetic is embedded as exact rational (`ℚ`) arithmetic;
  Python `int(x)` (truncation toward zero) is `pyInt`.
* Pillow images are embedded as row-major pixel grids (`List (List ·)`),
  assumed rectangular; Pillow library filters (resize, grayscale
  conversion, blur, FIND_EDGES, contrast) are opaque parameters collected
  in the `PILStub` structure, since they are library code, not repository
  code.
* Filesystem and subprocess effects are dropped: functions that write a
  file are embedded as the pure content they write; functions that spawn
  ffmpeg are embedded as the argument vector they construct.
-/

namespace V2A

/-! ## Python primitives -/

/-- Python `int(q)` on a float value: truncation toward zero
(`Int.tdiv` is T-division, which matches Python `int()`). -/
def pyInt (q : ℚ) : ℤ := q.num.tdiv q.den

theorem pyInt_of_nonneg {q : ℚ} (h : 0 ≤ q) : pyInt q = ⌊q⌋ := by
  rw [Rat.floor_def]
  exact Int.tdiv_eq_ediv (Rat.num_nonneg.mpr h) (by positivity)

/-- Python `\s` (ASCII whitespace as used by `str.strip`, `re` `\s`). -/
def isSpacePy (c : Char) : Bool :=
  c == ' ' || c == '\t' || c == '\n' || c == '\r' || c == '\x0b' || c == '\x0c'

/-- Python `str.lstrip()`. -/
def pyLstrip (l : List Char) : List Char := l.dropWhile isSpacePy

/-- Python `str.rstrip()`. -/
def pyRstrip (l : List Char) : List Char :=
  (l.reverse.dropWhile isSpacePy).reverse

/-- Python `str.strip()`. -/
def pyStrip (l : List Char) : List Char := pyRstrip (pyLstrip l)

/-- Python `str.rstrip(t)` for a single-character argument `t`. -/
def rstripChar (t : Char) (l : List Char) : List Char :=
  (l.reverse.dropWhile (· == t)).reverse

/-- Fuelled helper for `toDecChars` (structural recursion keeps kernel
reduction available). -/
def toDecAux : ℕ → ℕ → List Char
  | 0, _ => []
  | fuel + 1, n =>
    if n < 10 then [Nat.digitChar n]
    else toDecAux fuel (n / 10) ++ [Nat.digitChar (n % 10)]

/-- Decimal rendering of a natural number, as Python `str`/f-string
formatting produces it (no padding, no sign). -/
def toDecChars (n : ℕ) : List Char := toDecAux (n + 1) n

theorem toDecAux_irrel : ∀ n f₁ f₂, n < f₁ → n < f₂ → toDecAux f₁ n = toDecAux f₂ n := by
  intro n
  induction n using Nat.strong_induction_on with
  | _ n ih =>
    intro f₁ f₂ h₁ h₂
    match f₁, f₂ with
    | g₁ + 1, g₂ + 1 =>
      simp only [toDecAux]
      split
      · rfl
      · rename_i hn
        rw [ih (n / 10) (Nat.div_lt_self (by omega) (by omega)) g₁ g₂ (by omega) (by omega)]

/-- The defining recursion of `toDecChars`. -/
theorem toDecChars_eq (n : ℕ) :
    toDecChars n =
      if n < 10 then [Nat.digitChar n]
      else toDecChars (n / 10) ++ [Nat.digitChar (n % 10)] := by
  unfold toDecChars
  simp only [toDecAux]
  split
  · rfl
  · rw [toDecAux_irrel (n / 10) n (n / 10 + 1) (by omega) (by omega)]
    simp only [toDecAux]

/-- Value of a list of decimal digit characters. -/
def digitsVal (l : List Char) : ℕ :=
  l.foldl (fun a c => a * 10 + (c.toNat - 48)) 0

/-- Python `int(s)` on a string: strip whitespace, optional sign, decimal
digits (underscore grouping is not modelled; no input in this development
uses it).  Returns `none` where Python raises `ValueError`. -/
def pyIntOpt (s : List Char) : Option ℤ :=
  match pyStrip s with
  | '-' :: ds => if ds ≠ [] ∧ ds.all Char.isDigit then some (-(digitsVal ds : ℤ)) else none
  | '+' :: ds => if ds ≠ [] ∧ ds.all Char.isDigit then some (digitsVal ds : ℤ) else none
  | ds => if ds ≠ [] ∧ ds.all Char.isDigit then some (digitsVal ds : ℤ) else none

/-! Facts about decimal rendering and parsing. -/

theorem digitChar_isDigit {d : ℕ} (h : d < 10) : (Nat.digitChar d).isDigit = true := by
  interval_cases d <;> decide

theorem digitChar_val {d : ℕ} (h : d < 10) : (Nat.digitChar d).toNat - 48 = d := by
  interval_cases d <;> decide

theorem toDecChars_ne_nil (n : ℕ) : toDecChars n ≠ [] := by
  rw [toDecChars_eq]
  split <;> simp

theorem toDecChars_digits (n : ℕ) : ∀ c ∈ toDecChars n, c.isDigit = true := by
  induction n using Nat.strong_induction_on with
  | _ n ih =>
    rw [toDecChars_eq]
    split
    · simpa using digitChar_isDigit (by omega)
    · rename_i h
      intro c hc
      rcases List.mem_append.1 hc with h1 | h1
      · exact ih (n / 10) (Nat.div_lt_self (by omega) (by omega)) c h1
      · simp only [List.mem_singleton] at h1
        subst h1
        exact digitChar_isDigit (Nat.mod_lt _ (by omega))

theorem digitsVal_append_singleton (l : List Char) (c : Char) :
    digitsVal (l ++ [c]) = digitsVal l * 10 + (c.toNat - 48) := by
  simp [digitsVal, List.foldl_append]

theorem digitsVal_toDecChars (n : ℕ) : digitsVal (toDecChars n) = n := by
  induction n using Nat.strong_induction_on with
  | _ n ih =>
    rw [toDecChars_eq]
    split
    · rename_i h
      simp [digitsVal, digitChar_val h]
    · rename_i h
      rw [digitsVal_append_singleton, ih (n / 10) (Nat.div_lt_self (by omega) (by omega)),
        digitChar_val (Nat.mod_lt _ (by omega))]
      omega

/-- Python `str.split(sep)` with an explicit one-character separator:
splits at every occurrence, keeping empty fields. -/
def splitOnC (sep : Char) : List Char → List (List Char)
  | [] => [[]]
  | c :: t =>
    if c = sep then [] :: splitOnC sep t
    else
      match splitOnC sep t with
      | [] => [[c]]
      | s :: ss => (c :: s) :: ss

theorem splitOnC_ne_nil (sep : Char) (l : List Char) : splitOnC sep l ≠ [] := by
  cases l with
  | nil => simp [splitOnC]
  | cons c t =>
    simp only [splitOnC]
    split
    · simp
    · split <;> simp

theorem splitOnC_sepFree {sep : Char} {l : List Char} (h : ∀ c ∈ l, c ≠ sep) :
    splitOnC sep l = [l] := by
  induction l with
  | nil => rfl
  | cons c t ih =>
    simp only [splitOnC]
    rw [if_neg (h c (by simp))]
    rw [ih (fun x hx => h x (by simp [hx]))]

theorem splitOnC_cons_self (sep : Char) (t : List Char) :
    splitOnC sep (sep :: t) = [] :: splitOnC sep t := by
  simp [splitOnC]

theorem splitOnC_cons_ne {sep c : Char} (h : ¬c = sep) (t : List Char)
    {s : List Char} {ss : List (List Char)} (ht : splitOnC sep t = s :: ss) :
    splitOnC sep (c :: t) = (c :: s) :: ss := by
  simp [splitOnC, h, ht]

theorem splitOnC_append_sep (sep : Char) (a b : List Char) :
    splitOnC sep (a ++ sep :: b) = splitOnC sep a ++ splitOnC sep b := by
  induction a with
  | nil => simp [splitOnC]
  | cons c t ih =>
    by_cases hc : c = sep
    · subst hc
      rw [List.cons_append, splitOnC_cons_self, splitOnC_cons_self, ih, List.cons_append]
    · obtain ⟨s, ss, ht⟩ : ∃ s ss, splitOnC sep t = s :: ss := by
        cases h' : splitOnC sep t with
        | nil => exact absurd h' (splitOnC_ne_nil sep t)
        | cons s ss => exact ⟨s, ss, rfl⟩
      have ht2 : splitOnC sep (t ++ sep :: b) = s :: (ss ++ splitOnC sep b) := by
        rw [ih, ht, List.cons_append]
      rw [List.cons_append, splitOnC_cons_ne hc _ ht2, splitOnC_cons_ne hc _ ht,
        List.cons_append]

/-- Python `float(s)` restricted to plain decimal literals
`digits[.digits]` (the only shape reaching it in this repository);
exact rational value.  `none` where Python raises `ValueError`. -/
def pyFloatOpt (s : List Char) : Option ℚ :=
  match splitOnC '.' (pyStrip s) with
  | [ds] => if ds ≠ [] ∧ ds.all Char.isDigit then some (digitsVal ds : ℚ) else none
  | [ds, fs] =>
    if (ds ≠ [] ∨ fs ≠ []) ∧ ds.all Char.isDigit ∧ fs.all Char.isDigit then
      some ((digitsVal ds : ℚ) + (digitsVal fs : ℚ) / ((10 : ℚ) ^ fs.length))
    else none
  | _ => none

theorem isDigit_not_space {c : Char} (h : c.isDigit = true) : isSpacePy c = false := by
  simp only [Char.isDigit, decide_eq_true_eq, Bool.and_eq_true, ge_iff_le] at h
  simp only [isSpacePy, Bool.or_eq_false_iff, beq_eq_false_iff_ne]
  refine ⟨⟨⟨⟨⟨?_, ?_⟩, ?_⟩, ?_⟩, ?_⟩, ?_⟩ <;> rintro rfl <;> revert h <;> decide

/-! ## converter.py — charsets and brightness-to-glyph mapping -/

/-- The apostrophe character (used by the `dense` charset). -/
def apos : Char := Char.ofNat 39

/-- `CHARSETS` dictionary from `converter.py`. -/
def CHARSETS : List (List Char × List Char) :=
  [("classic".toList, " .:-=+*#%@".toList),
   ("blocks".toList, " ░▒▓█".toList),
   ("braille".toList,
    " ⠁⠂⠃⠄⠅⠆⠇⠈⠉⠊⠋⠌⠍⠎⠏⠐⠑⠒⠓⠔⠕⠖⠗⠘⠙⠚⠛⠜⠝⠞⠟⠠⠡⠢⠣⠤⠥⠦⠧⠨⠩⠪⠫⠬⠭⠮⠯⠰⠱⠲⠳⠴⠵⠶⠷⠸⠹⠺⠻⠼⠽⠾⠿".toList),
   ("dense".toList,
    (" ." ++ String.singleton apos ++ "`^\",:;Il!i><~+_-?][\x7d\x7b1)(|\\/tfjrxnuvczXYUJCLQ0OZmwqpdbkhao*#MW&8%B@$").toList),
   ("simple".toList, " .oO0".toList),
   ("petscii".toList, " ░▁▏▔▎▂▕▍▃▌▄▒▓▗▖▘▝▚▙▛▜▉▊▋▆▇▅█".toList)]

/-- Charset resolution at the top of `image_to_ascii`: a known name maps to
its table entry, anything else is used as a custom charset string. -/
def resolveCharset (charset : List Char) : List Char :=
  match CHARSETS.find? (fun p => p.1 == charset) with
  | some p => p.2
  | none => charset

/-- The character list actually indexed by `image_to_ascii` after the
optional `chars = chars[::-1]` inversion. -/
def effectiveChars (charset : List Char) (invert : Bool) : List Char :=
  let c := resolveCharset charset
  if invert then c.reverse else c

/-- `char_idx = int((brightness / 255.0) * (len(chars) - 1))` from
`image_to_ascii`. -/
def char_idx (n : ℕ) (b : ℚ) : ℤ := pyInt (b / 255 * ((n : ℚ) - 1))

/-- `chars[char_idx]` (theorems below show the index is in bounds, so the
default is never returned for brightness in `0..255`). -/
def glyphFor (chars : List Char) (b : ℚ) : Char :=
  chars.getD (char_idx chars.length b).toNat ' '

theorem char_idx_nonneg {n : ℕ} {b : ℚ} (h0 : 0 ≤ b) (hn : 1 ≤ n) :
    0 ≤ char_idx n b := by
  have harg : (0 : ℚ) ≤ b / 255 * ((n : ℚ) - 1) := by
    apply mul_nonneg (div_nonneg h0 (by norm_num))
    have : (1 : ℚ) ≤ (n : ℚ) := by exact_mod_cast hn
    linarith
  rw [char_idx, pyInt_of_nonneg harg]
  exact Int.floor_nonneg.mpr harg

theorem char_idx_le {n : ℕ} {b : ℚ} (h0 : 0 ≤ b) (h255 : b ≤ 255) (hn : 1 ≤ n) :
    char_idx n b ≤ (n : ℤ) - 1 := by
  have h1 : (1 : ℚ) ≤ (n : ℚ) := by exact_mod_cast hn
  have harg : b / 255 * ((n : ℚ) - 1) ≤ (n : ℚ) - 1 := by
    have hdiv : b / 255 ≤ 1 := (div_le_one (by norm_num)).mpr h255
    nlinarith [div_nonneg h0 (show (0:ℚ) ≤ 255 by norm_num)]
  have harg0 : (0 : ℚ) ≤ b / 255 * ((n : ℚ) - 1) := by
    apply mul_nonneg (div_nonneg h0 (by norm_num))
    linarith
  rw [char_idx, pyInt_of_nonneg harg0]
  calc ⌊b / 255 * ((n : ℚ) - 1)⌋ ≤ ⌊(n : ℚ) - 1⌋ := Int.floor_le_floor harg
    _ = (n : ℤ) - 1 := by
        rw [show ((n : ℚ) - 1) = (((n : ℤ) - 1 : ℤ) : ℚ) by push_cast; ring]
        exact Int.floor_intCast _

theorem char_idx_lt {n : ℕ} {b : ℚ} (h0 : 0 ≤ b) (h255 : b ≤ 255) (hn : 1 ≤ n) :
    (char_idx n b).toNat < n := by
  have := char_idx_le h0 h255 hn
  omega

theorem char_idx_mono {n : ℕ} {b₁ b₂ : ℚ} (h0 : 0 ≤ b₁) (hle : b₁ ≤ b₂) (hn : 1 ≤ n) :
    char_idx n b₁ ≤ char_idx n b₂ := by
  have h1 : (1 : ℚ) ≤ (n : ℚ) := by exact_mod_cast hn
  have harg0 : (0 : ℚ) ≤ b₁ / 255 * ((n : ℚ) - 1) := by
    apply mul_nonneg (div_nonneg h0 (by norm_num))
    linarith
  have harg0' : (0 : ℚ) ≤ b₂ / 255 * ((n : ℚ) - 1) := by
    apply mul_nonneg (div_nonneg (le_trans h0 hle) (by norm_num))
    linarith
  rw [char_idx, char_idx, pyInt_of_nonneg harg0, pyInt_of_nonneg harg0']
  apply Int.floor_le_floor
  have hd : b₁ / 255 ≤ b₂ / 255 := by linarith
  exact mul_le_mul_of_nonneg_right hd (by linarith)

theorem char_idx_max {n : ℕ} (hn : 1 ≤ n) : char_idx n 255 = (n : ℤ) - 1 := by
  have harg : ((255 : ℚ) / 255) * ((n : ℚ) - 1) = (n : ℚ) - 1 := by norm_num
  have h1 : (1 : ℚ) ≤ (n : ℚ) := by exact_mod_cast hn
  have h0 : (0 : ℚ) ≤ (255 : ℚ) / 255 * ((n : ℚ) - 1) := by
    rw [harg]; linarith
  rw [char_idx, pyInt_of_nonneg h0, harg,
    show ((n : ℚ) - 1) = (((n : ℤ) - 1 : ℤ) : ℚ) by push_cast; ring]
  exact Int.floor_intCast _

theorem length_pos_of_ne_nil {l : List Char} (h : l ≠ []) : 1 ≤ l.length := by
  cases l with
  | nil => exact absurd rfl h
  | cons c t => simp

/-- C4: the glyph index `int((brightness/255)*(n-1))` of `image_to_ascii`
is monotone non-decreasing in brightness (a brighter pixel never maps to an
earlier character of the charset), and `invert=True` selects exactly the
glyph that the reversed charset selects, i.e. the glyph at the mirrored
position of the un-inverted charset. -/
theorem brightness_glyph_mapping (chars cs : List Char) (b b₁ b₂ : ℚ)
    (hne : chars ≠ []) (h0 : 0 ≤ b₁) (hle : b₁ ≤ b₂)
    (h0b : 0 ≤ b) (hb : b ≤ 255) (hcs : resolveCharset cs ≠ []) :
    char_idx chars.length b₁ ≤ char_idx chars.length b₂ ∧
    glyphFor (effectiveChars cs true) b = glyphFor ((resolveCharset cs).reverse) b ∧
    glyphFor (effectiveChars cs true) b =
      (resolveCharset cs).getD
        ((resolveCharset cs).length - 1 - (char_idx (resolveCharset cs).length b).toNat) ' ' := by
  refine ⟨char_idx_mono h0 hle (length_pos_of_ne_nil hne), rfl, ?_⟩
  have hn : 1 ≤ (resolveCharset cs).length := length_pos_of_ne_nil hcs
  have hidx : (char_idx (resolveCharset cs).length b).toNat < (resolveCharset cs).length :=
    char_idx_lt h0b hb hn
  have hrev : (effectiveChars cs true) = (resolveCharset cs).reverse := rfl
  rw [hrev]
  unfold glyphFor
  rw [List.length_reverse]
  have hidx' : (char_idx (resolveCharset cs).length b).toNat < (resolveCharset cs).reverse.length := by
    rw [List.length_reverse]; exact hidx
  rw [List.getD_eq_getElem _ _ hidx', List.getElem_reverse,
    List.getD_eq_getElem _ _ (by omega)]

/-- C4 witness. -/
theorem brightness_glyph_mapping_witness :
    char_idx 2 10 ≤ char_idx 2 200 ∧
    glyphFor (effectiveChars ['a', 'b'] true) 100 = glyphFor ((resolveCharset ['a', 'b']).reverse) 100 ∧
    glyphFor (effectiveChars ['a', 'b'] true) 100 =
      (resolveCharset ['a', 'b']).getD
        ((resolveCharset ['a', 'b']).length - 1 -
          (char_idx (resolveCharset ['a', 'b']).length (100 : ℚ)).toNat) ' ' := by
  have h := brightness_glyph_mapping ['a', 'b'] ['a', 'b'] 100 10 200
    (by decide) (by norm_num) (by norm_num) (by norm_num) (by norm_num)
    (by decide)
  exact h

/-- C10: for a non-empty charset of length `n` and any brightness in
`0..255` (a grayscale byte, or an RGB triple averaged to `(r+g+b)/3`,
which also lies in `0..255`), the index computed by `image_to_ascii` is in
`0..n-1`, so `chars[char_idx]` cannot be out of range, and brightness 255
selects exactly the last character. -/
theorem charset_index_safe (chars : List Char) (b : ℚ) (r g b' : ℕ)
    (hne : chars ≠ []) (h0 : 0 ≤ b) (h255 : b ≤ 255)
    (hr : r ≤ 255) (hg : g ≤ 255) (hb : b' ≤ 255) :
    0 ≤ char_idx chars.length b ∧
    (char_idx chars.length b).toNat < chars.length ∧
    (b = 255 → (char_idx chars.length b).toNat = chars.length - 1) ∧
    0 ≤ ((r : ℚ) + g + b') / 3 ∧ ((r : ℚ) + g + b') / 3 ≤ 255 := by
  have hn : 1 ≤ chars.length := length_pos_of_ne_nil hne
  refine ⟨char_idx_nonneg h0 hn, char_idx_lt h0 h255 hn, ?_, ?_, ?_⟩
  · rintro rfl
    have := char_idx_max (n := chars.length) hn
    omega
  · positivity
  · have hr' : (r : ℚ) ≤ 255 := by exact_mod_cast hr
    have hg' : (g : ℚ) ≤ 255 := by exact_mod_cast hg
    have hb' : (b' : ℚ) ≤ 255 := by exact_mod_cast hb
    linarith

/-- C10 witness. -/
theorem charset_index_safe_witness :
    0 ≤ char_idx 10 255 ∧ (char_idx 10 (255 : ℚ)).toNat < 10 ∧
    ((255 : ℚ) = 255 → (char_idx 10 (255 : ℚ)).toNat = 10 - 1) ∧
    0 ≤ ((200 : ℚ) + 100 + 50) / 3 ∧ ((200 : ℚ) + 100 + 50) / 3 ≤ 255 := by
  have h := charset_index_safe " .:-=+*#%@".toList 255 200 100 50
    (by decide) (by norm_num) (by norm_num) (by norm_num) (by norm_num) (by norm_num)
  simpa using h

/-! ## C9 — the two hardcoded CRT green-phosphor blends -/

theorem pyInt_toNat_le {q : ℚ} {m : ℕ} (h : q ≤ (m : ℚ)) : (pyInt q).toNat ≤ m := by
  rcases le_or_lt 0 q with h0 | h0
  · rw [pyInt_of_nonneg h0]
    have h1 : ⌊q⌋ ≤ (m : ℤ) := by
      calc ⌊q⌋ ≤ ⌊(m : ℚ)⌋ := Int.floor_le_floor h
        _ = (m : ℤ) := Int.floor_natCast m
    omega
  · have h' : ¬0 ≤ q := not_le.mpr h0
    have hnum : ¬0 ≤ q.num := fun hn => h' (Rat.num_nonneg.mp hn)
    have hle : pyInt q ≤ 0 := by
      unfold pyInt
      rw [show q.num = -(-q.num) by omega, Int.neg_tdiv]
      have := Int.tdiv_nonneg (a := -q.num) (b := (q.den : ℤ)) (by omega) (by positivity)
      omega
    omega

/-- CRT green tint applied in the ANSI-parsing loop of
`render_ascii_frame` (`mp4_exporter.py`), `crt_green = (51, 255, 51)`. -/
def crt_tint_mp4 (r g b : ℕ) : ℕ × ℕ × ℕ :=
  (min 255 (pyInt ((r : ℚ) * 0.2 + 51 * 0.8)).toNat,
   min 255 (pyInt ((g : ℚ) * 0.2 + 255 * 0.8)).toNat,
   min 255 (pyInt ((b : ℚ) * 0.2 + 51 * 0.8)).toNat)

/-- CRT green phosphor blend in `_wrap_text` (`web/renderer.py`). -/
def crt_tint_web (r g b : ℕ) : ℕ × ℕ × ℕ :=
  ((pyInt ((r : ℚ) * 0.2 + 51 * 0.8)).toNat,
   (pyInt ((g : ℚ) * 0.2 + 255 * 0.8)).toNat,
   (pyInt ((b : ℚ) * 0.2 + 51 * 0.8)).toNat)

/-- C9: for channels in `0..255` the MP4 renderer's clamped CRT blend and
the web renderer's unclamped CRT blend agree: each blended channel is at
most 255, so the `min(255, ·)` clamp never changes the value. -/
theorem crt_green_blends_agree (r g b : ℕ) (hr : r ≤ 255) (hg : g ≤ 255) (hb : b ≤ 255) :
    crt_tint_mp4 r g b = crt_tint_web r g b := by
  have hr' : (r : ℚ) ≤ 255 := by exact_mod_cast hr
  have hg' : (g : ℚ) ≤ 255 := by exact_mod_cast hg
  have hb' : (b : ℚ) ≤ 255 := by exact_mod_cast hb
  unfold crt_tint_mp4 crt_tint_web
  have e1 : (pyInt ((r : ℚ) * 0.2 + 51 * 0.8)).toNat ≤ 255 :=
    pyInt_toNat_le (by push_cast; linarith)
  have e2 : (pyInt ((g : ℚ) * 0.2 + 255 * 0.8)).toNat ≤ 255 :=
    pyInt_toNat_le (by push_cast; linarith)
  have e3 : (pyInt ((b : ℚ) * 0.2 + 51 * 0.8)).toNat ≤ 255 :=
    pyInt_toNat_le (by push_cast; linarith)
  rw [Nat.min_eq_right e1, Nat.min_eq_right e2, Nat.min_eq_right e3]

/-- C9 witness. -/
theorem crt_green_blends_agree_witness :
    crt_tint_mp4 255 255 255 = crt_tint_web 255 255 255 :=
  crt_green_blends_agree 255 255 255 (by norm_num) (by norm_num) (by norm_num)

/-! ## C1 — the ffmpeg command constructed by `export_mp4` -/

/-- Base of the ffmpeg invocation built in `export_mp4`
(`mp4_exporter.py`). -/
def ffmpeg_base_cmd (fps : ℕ) (pattern : String) : List String :=
  ["ffmpeg", "-y", "-hide_banner", "-loglevel", "error",
   "-framerate", String.mk (toDecChars fps), "-i", pattern]

/-- Codec-dependent arguments appended by `export_mp4`: branches exist
only for `prores422` and `h265`; everything else falls to the H.264
default. -/
def export_mp4_codec_args (codec : String) : List String :=
  if codec = "prores422" then
    ["-c:v", "prores_ks", "-profile:v", "hq", "-pix_fmt", "yuv422p10le"]
  else if codec = "h265" then
    ["-c:v", "libx265", "-pix_fmt", "yuv420p", "-crf", "18", "-preset", "medium"]
  else
    ["-c:v", "libx264", "-pix_fmt", "yuv420p", "-crf", "18"]

/-- The full argument vector `export_mp4` passes to `subprocess.run`. -/
def export_mp4_ffmpeg_cmd (fps : ℕ) (pattern output codec : String) : List String :=
  ffmpeg_base_cmd fps pattern ++ export_mp4_codec_args codec ++ [output]

/-- The command produced for the `/api/export/webm` route: `_run_export`
(`services/mp4_api.py`) calls `export_mp4` with `codec="vp9"`. -/
def webm_export_ffmpeg_cmd (fps : ℕ) (pattern output : String) : List String :=
  export_mp4_ffmpeg_cmd fps pattern output "vp9"

/-- C1: evaluating the codec dispatch of `export_mp4` at the
`codec="vp9"` input used by the `/api/export/webm` endpoint shows that
the constructed ffmpeg command selects `libx264` (the default branch) and
contains no VP9 encoder argument at all — contradicting the claim that a
VP9 encoder is selected. -/
theorem webm_export_selects_h264_not_vp9 :
    "libx264" ∈ webm_export_ffmpeg_cmd 12 "frame_%06d.png" "export.webm" ∧
    "libvpx-vp9" ∉ webm_export_ffmpeg_cmd 12 "frame_%06d.png" "export.webm" ∧
    "vp9" ∉ webm_export_ffmpeg_cmd 12 "frame_%06d.png" "export.webm" := by
  decide

/-! ## Images, Pillow stubs, `image_to_ascii`, `detect_edges` -/

/-- An RGB pixel. -/
abbrev Rgb := ℕ × ℕ × ℕ

/-- A Pillow RGB image as a rectangular row-major pixel grid. -/
abbrev Img := List (List Rgb)

/-- A Pillow mode-`L` (grayscale) image. -/
abbrev GrayImg := List (List ℕ)

def gridW {α : Type} (g : List (List α)) : ℕ := (g.headD []).length

def gridH {α : Type} (g : List (List α)) : ℕ := g.length

/-- Opaque Pillow library operations used by the repository (resampling,
mode conversion and the stock filters are library code, not repository
code, so they are parameters of the embedding). -/
structure PILStub where
  resize : Img → ℕ → ℕ → Img
  resizeGray : GrayImg → ℕ → ℕ → GrayImg
  toGray : Img → GrayImg
  gaussianBlur : ℚ → GrayImg → GrayImg
  findEdges : GrayImg → GrayImg
  contrast : ℚ → GrayImg → GrayImg
  toRgb : GrayImg → Img

def ESC : Char := '\x1b'

/-- The ANSI reset `\033[0m` appended after every colored glyph. -/
def resetSeq : List Char := [ESC, '[', '0', 'm']

/-- The ANSI truecolor prefix `\033[38;2;R;G;Bm` emitted by
`image_to_ascii` in color mode. -/
def fgSeq (r g b : ℕ) : List Char :=
  ESC :: '[' :: '3' :: '8' :: ';' :: '2' :: ';' ::
    (toDecChars r ++ ';' :: (toDecChars g ++ ';' :: (toDecChars b ++ ['m'])))

/-- `brightness = (r + g + b) / 3.0` for a color pixel. -/
def avgBrightness (p : Rgb) : ℚ := ((p.1 : ℚ) + (p.2.1 : ℚ) + (p.2.2 : ℚ)) / 3

/-- One pixel of a color-mode line:
`f"\033[38;2;{r};{g};{b}m{char}\033[0m"`. -/
def ascii_color_pixel (chars : List Char) (p : Rgb) : List Char :=
  fgSeq p.1 p.2.1 p.2.2 ++ glyphFor chars (avgBrightness p) :: resetSeq

def ascii_color_line (chars : List Char) (row : List Rgb) : List Char :=
  row.flatMap (ascii_color_pixel chars)

def ascii_gray_line (chars : List Char) (row : List ℕ) : List Char :=
  row.map (fun v => glyphFor chars (v : ℚ))

/-- `"\n".join(lines)`. -/
def joinNl (lines : List (List Char)) : List Char := List.intercalate ['\n'] lines

/-- `image_to_ascii` (`converter.py`): charset resolution and optional
inversion, aspect-corrected target height, Pillow resize, then the
per-pixel brightness-to-glyph loop (color mode wraps each glyph in ANSI
truecolor codes).  `none` models the `ZeroDivisionError` on a zero-width
image. -/
def image_to_ascii (pil : PILStub) (img : Img) (width : ℕ) (color invert : Bool)
    (aspect : ℚ) (charset : List Char) : Option (List Char) :=
  let chars := effectiveChars charset invert
  if gridW img = 0 then none
  else
    let height := (pyInt ((gridH img : ℚ) * aspect * (width : ℚ) / (gridW img : ℚ))).toNat
    let resized := pil.resize img width height
    if color then some (joinNl (resized.map (ascii_color_line chars)))
    else some (joinNl ((pil.toGray resized).map (ascii_gray_line chars)))

/-- `image_to_ascii` applied to a mode-`L` image (as happens on the
non-color edge-detection path of `convert_frame`; `convert("L")` is then
the identity). -/
def image_to_ascii_grayimg (pil : PILStub) (g : GrayImg) (width : ℕ) (invert : Bool)
    (aspect : ℚ) (charset : List Char) : Option (List Char) :=
  let chars := effectiveChars charset invert
  if gridW g = 0 then none
  else
    let height := (pyInt ((gridH g : ℚ) * aspect * (width : ℚ) / (gridW g : ℚ))).toNat
    some (joinNl ((pil.resizeGray g width height).map (ascii_gray_line chars)))

/-- The per-pixel thresholding loop of `detect_edges`. -/
def threshold_px (tval : ℕ) (p : ℕ) : ℕ :=
  if p < tval then 0 else min 255 (pyInt ((p : ℚ) * 1.3)).toNat

/-- `detect_edges` (`converter.py`), non-color result: grayscale, Gaussian
blur of radius 1.0, `FIND_EDGES`, contrast enhancement 2.0, then the
threshold loop with `threshold_value = int(threshold * 255)`. -/
def detect_edges_gray (pil : PILStub) (img : Img) (threshold : ℚ) : GrayImg :=
  let gray := pil.toGray img
  let blurred := pil.gaussianBlur 1.0 gray
  let edges := pil.findEdges blurred
  let enhanced := pil.contrast 2.0 edges
  let tval := (pyInt (threshold * 255)).toNat
  enhanced.map (fun row => row.map (threshold_px tval))

/-- Color blend of `detect_edges`: edge brightness modulates the original
color. -/
def blend_edge_px (o e : Rgb) : Rgb :=
  let s := avgBrightness e / 255
  ((pyInt ((o.1 : ℚ) * s)).toNat, (pyInt ((o.2.1 : ℚ) * s)).toNat,
   (pyInt ((o.2.2 : ℚ) * s)).toNat)

/-- `detect_edges` with `color=True`. -/
def detect_edges_color (pil : PILStub) (img : Img) (threshold : ℚ) : Img :=
  let edges := pil.toRgb (detect_edges_gray pil img threshold)
  List.zipWith (fun orow erow => List.zipWith blend_edge_px orow erow) img edges

/-- C7: after the `detect_edges` pipeline, every pixel of the (non-color)
result is either 0 or at least `int(threshold * 255)`: pixels strictly
below the threshold value are zeroed and all others are boosted to
`min(255, int(pixel * 1.3))`, which stays at or above the threshold value
whenever `threshold ≤ 1`. -/
theorem detect_edges_threshold_invariant (pil : PILStub) (img : Img) (threshold : ℚ)
    (_h0 : 0 ≤ threshold) (h1 : threshold ≤ 1)
    (row : List ℕ) (hrow : row ∈ detect_edges_gray pil img threshold)
    (p : ℕ) (hp : p ∈ row) :
    p = 0 ∨ (pyInt (threshold * 255)).toNat ≤ p := by
  unfold detect_edges_gray at hrow
  simp only [List.mem_map] at hrow
  obtain ⟨row₀, _, hmap⟩ := hrow
  subst hmap
  simp only [List.mem_map] at hp
  obtain ⟨q, _, hq⟩ := hp
  subst hq
  unfold threshold_px
  split
  · exact Or.inl rfl
  · rename_i hge
    right
    have htv : (pyInt (threshold * 255)).toNat ≤ 255 :=
      pyInt_toNat_le (by push_cast; linarith)
    have hq13 : (q : ℚ) ≤ (q : ℚ) * 1.3 := by
      nlinarith [Nat.cast_nonneg (α := ℚ) q]
    have hfl : (q : ℤ) ≤ pyInt ((q : ℚ) * 1.3) := by
      rw [pyInt_of_nonneg (by positivity)]
      exact Int.le_floor.mpr (by push_cast; linarith)
    have : (pyInt (threshold * 255)).toNat ≤ (pyInt ((q : ℚ) * 1.3)).toNat := by omega
    exact le_min htv this

/-- Concrete Pillow stub used by witnesses: identity filters over a fixed
2-pixel grayscale image. -/
def pilConst : PILStub where
  resize := fun i _ _ => i
  resizeGray := fun g _ _ => g
  toGray := fun _ => [[100, 10]]
  gaussianBlur := fun _ g => g
  findEdges := fun g => g
  contrast := fun _ g => g
  toRgb := fun g => g.map (List.map fun v => (v, v, v))

unseal Rat.mul Rat.inv Rat.add Rat.sub Rat.ofScientific in
/-- C7 witness. -/
theorem detect_edges_threshold_invariant_witness :
    (130 : ℕ) = 0 ∨ (pyInt ((3 / 20 : ℚ) * 255)).toNat ≤ 130 :=
  detect_edges_threshold_invariant pilConst [[(0, 0, 0)]] (3 / 20)
    (by norm_num) (by norm_num) [130, 0] (by decide) 130 (by decide)

/-! ## C2 — `render_ascii_frame` image dimensions (`mp4_exporter.py`) -/

/-- Fuelled scanner for `re.sub(r'\033\[[0-9;]*m', '', line)`: remove each
ANSI escape sequence, scanning left to right. -/
def stripAnsiAux : ℕ → List Char → List Char
  | 0, l => l
  | _ + 1, [] => []
  | fuel + 1, c :: t =>
    if c = ESC then
      match t with
      | '[' :: r =>
        let ds := r.takeWhile (fun x => x.isDigit || x == ';')
        match r.drop ds.length with
        | 'm' :: rest => stripAnsiAux fuel rest
        | _ => c :: stripAnsiAux fuel t
      | _ => c :: stripAnsiAux fuel t
    else c :: stripAnsiAux fuel t

/-- ANSI codes stripped from a line (used to measure visual width). -/
def stripAnsi (l : List Char) : List Char := stripAnsiAux l.length l

/-- `n if n % 2 == 0 else n + 1` — force an even dimension (required for
H.264 yuv420p). -/
def evenize (n : ℕ) : ℕ := if n % 2 = 0 then n else n + 1

/-- Final dimension adjustment of `render_ascii_frame`: make both
dimensions even, scale down preserving aspect if either exceeds 3840, and
re-evenize after scaling. -/
def finalize_dims (w h : ℕ) : ℕ × ℕ :=
  let w₁ := evenize w
  let h₁ := evenize h
  if 3840 < w₁ ∨ 3840 < h₁ then
    let scale : ℚ := min ((3840 : ℚ) / (w₁ : ℚ)) ((3840 : ℚ) / (h₁ : ℚ))
    (evenize (pyInt ((w₁ : ℚ) * scale)).toNat, evenize (pyInt ((h₁ : ℚ) * scale)).toNat)
  else (w₁, h₁)

/-- The `(width, height)` of the image created by `render_ascii_frame`.
Font measurement is opaque (Pillow/font files), so the character-cell
metrics `charW`/`charH` and the metrics `reload` obtained when the font is
reloaded in the scale-up branch are parameters.  `none` models the
`ZeroDivisionError` raised when `base_height` or `base_width` is zero on
the corresponding division paths. -/
def render_ascii_frame_dims (asciiText : List Char) (color : Bool)
    (charW charH fontSize : ℕ) (reload : Option (ℕ × ℕ))
    (targetWidth : Option ℕ) : Option (ℕ × ℕ) :=
  match splitOnC '\n' asciiText with
  | [] => none
  | l₀ :: ls =>
    let lines := l₀ :: ls
    let maxWidth :=
      if color then ((lines.map (fun l => (stripAnsi l).length)).max?).getD 80
      else ((lines.map List.length).max?).getD 80
    let numLines := lines.length
    let baseW := maxWidth * charW
    let baseH := numLines * charH
    if baseH = 0 then none
    else
      let ratio : ℚ := (baseW : ℚ) / (baseH : ℚ)
      let targetW :=
        match targetWidth with
        | some t => if 0 < t then t else 1920
        | none => 1920
      if baseW < targetW then
        if baseW = 0 then none
        else
          let scale : ℚ := (targetW : ℚ) / (baseW : ℚ)
          let _newFontSize := max 12 (pyInt ((fontSize : ℚ) * scale)).toNat
          let cw := (reload.getD (charW, charH)).1
          let ch := (reload.getD (charW, charH)).2
          let w := maxWidth * cw
          let h := numLines * ch
          let newAspect : ℚ := if 0 < h then (w : ℚ) / (h : ℚ) else 1
          let h' :=
            if 1 / 100 < |newAspect - ratio| then
              (if 0 < ratio then (pyInt ((w : ℚ) / ratio)).toNat else h)
            else h
          some (finalize_dims w h')
      else some (finalize_dims baseW baseH)

theorem evenize_even (n : ℕ) : evenize n % 2 = 0 := by
  unfold evenize
  split <;> omega

theorem finalize_dims_even (w h : ℕ) :
    (finalize_dims w h).1 % 2 = 0 ∧ (finalize_dims w h).2 % 2 = 0 := by
  unfold finalize_dims
  dsimp only
  split
  · exact ⟨evenize_even _, evenize_even _⟩
  · exact ⟨evenize_even _, evenize_even _⟩

/-- C2: whenever `render_ascii_frame` creates an image (any text, any
character-cell metrics, any target width, including the scale-down path
for dimensions exceeding 3840), both its width and its height are even. -/
theorem render_ascii_frame_dims_even (asciiText : List Char) (color : Bool)
    (charW charH fontSize : ℕ) (reload : Option (ℕ × ℕ))
    (targetWidth : Option ℕ) (w h : ℕ)
    (hres : render_ascii_frame_dims asciiText color charW charH fontSize reload
      targetWidth = some (w, h)) :
    w % 2 = 0 ∧ h % 2 = 0 := by
  have key : ∀ a b : ℕ, some (finalize_dims a b) = some (w, h) → w % 2 = 0 ∧ h % 2 = 0 := by
    intro a b hab
    rw [Option.some.injEq] at hab
    have h2 := finalize_dims_even a b
    rw [hab] at h2
    simpa using h2
  unfold render_ascii_frame_dims at hres
  split at hres
  · exact Option.noConfusion hres
  · dsimp only at hres
    repeat' split at hres
    all_goals first
      | exact Option.noConfusion hres
      | exact key _ _ hres

unseal Rat.mul Rat.inv Rat.add Rat.sub Rat.ofScientific in
/-- C2 witness. -/
theorem render_ascii_frame_dims_even_witness : (16 : ℕ) % 2 = 0 ∧ (32 : ℕ) % 2 = 0 :=
  render_ascii_frame_dims_even ['a', 'b', '\n', 'c', 'd'] false 8 16 20 none
    (some 10) 16 32 (by decide)

/-! ## C5 — `convert_all` versus sequential conversion (`converter.py`) -/

/-- `pathlib.PurePath.stem`: the final path component without its last
suffix (`name[:i]` for `i = name.rfind('.')` when `0 < i < len(name)-1`). -/
def pathStem (p : List Char) : List Char :=
  let name := (splitOnC '/' p).getLastD []
  match name.reverse.findIdx? (· == '.') with
  | some j =>
    let i := name.length - 1 - j
    if 0 < i ∧ i < name.length - 1 then name.take i else name
  | none => name

/-- `frame_num = int(frame_path.stem.split("_")[1])` from `convert_frame`;
`none` models the `IndexError`/`ValueError` on malformed names. -/
def frame_num (p : List Char) : Option ℤ :=
  match ((splitOnC '_' (pathStem p)).drop 1).head? with
  | some s => pyIntOpt s
  | none => none

/-- `convert_frame` (`converter.py`): load the frame, optionally apply
edge detection, convert to ASCII, and pair the result with the frame
number parsed from the filename. -/
def convert_frame (pil : PILStub) (load : List Char → Img) (width : ℕ)
    (color invert edge : Bool) (aspect edgeThreshold : ℚ) (charset : List Char)
    (p : List Char) : Option (ℤ × List Char) := do
  let a ←
    if edge then
      if color then
        image_to_ascii pil (detect_edges_color pil (load p) edgeThreshold)
          width true invert aspect charset
      else
        image_to_ascii_grayimg pil (detect_edges_gray pil (load p) edgeThreshold)
          width invert aspect charset
    else image_to_ascii pil (load p) width color invert aspect charset
  let n ← frame_num p
  pure (n, a)

/-- `convert_all` (`converter.py`): the process-pool `map` over the frame
paths (order-preserving, one frame per worker), then
`results.sort(key=lambda x: x[0])` — a stable key sort, embedded as
`List.mergeSort` — then projection to the ASCII strings. -/
def convert_all (pil : PILStub) (load : List Char → Img) (width : ℕ)
    (color invert edge : Bool) (aspect edgeThreshold : ℚ) (charset : List Char)
    (paths : List (List Char)) : Option (List (List Char)) := do
  let results ← paths.mapM
    (convert_frame pil load width color invert edge aspect edgeThreshold charset)
  pure ((results.mergeSort (fun a b => decide (a.1 ≤ b.1))).map Prod.snd)

/-- Modelled from the spec words for comparison with `convert_all`:
apply `convert_frame` to each path one at a time and order the results by
ascending frame number (reference ordering: insertion sort). -/
def convert_all_seq (pil : PILStub) (load : List Char → Img) (width : ℕ)
    (color invert edge : Bool) (aspect edgeThreshold : ℚ) (charset : List Char)
    (paths : List (List Char)) : Option (List (List Char)) := do
  let results ← paths.mapM
    (convert_frame pil load width color invert edge aspect edgeThreshold charset)
  pure ((List.insertionSort (fun a b => a.1 ≤ b.1) results).map Prod.snd)

theorem eq_of_perm_of_sorted_of_nodup_keys :
    ∀ {l₁ l₂ : List (ℤ × List Char)}, l₁.Perm l₂ →
      l₁.Pairwise (fun a b => a.1 ≤ b.1) → l₂.Pairwise (fun a b => a.1 ≤ b.1) →
      (l₁.map Prod.fst).Nodup → l₁ = l₂ := by
  intro l₁
  induction l₁ with
  | nil =>
    intro l₂ hperm _ _ _
    exact (List.Perm.nil_eq hperm)
  | cons a t₁ ih =>
    intro l₂ hperm h₁ h₂ hnd
    rw [List.map_cons] at hnd
    cases l₂ with
    | nil => exact absurd hperm.symm (by simp)
    | cons b t₂ =>
      have hab : a = b := by
        by_contra hne
        have hbmem : b ∈ a :: t₁ := hperm.symm.subset (List.mem_cons_self b t₂)
        have hamem : a ∈ b :: t₂ := hperm.subset (List.mem_cons_self a t₁)
        rcases List.mem_cons.mp hbmem with hba | hbt
        · exact hne hba.symm
        rcases List.mem_cons.mp hamem with hab' | hat
        · exact hne hab'
        have hle1 : a.1 ≤ b.1 := (List.pairwise_cons.mp h₁).1 b hbt
        have hle2 : b.1 ≤ a.1 := (List.pairwise_cons.mp h₂).1 a hat
        have hkey : a.1 = b.1 := le_antisymm hle1 hle2
        have hmem : a.1 ∈ t₁.map Prod.fst := by
          rw [hkey]
          exact List.mem_map_of_mem Prod.fst hbt
        exact (List.nodup_cons.mp hnd).1 hmem
      subst hab
      have ht : t₁.Perm t₂ := hperm.cons_inv
      rw [ih ht (List.pairwise_cons.mp h₁).2 (List.pairwise_cons.mp h₂).2
        (List.nodup_cons.mp hnd).2]

/-- C5: when the frame filenames carry distinct frame numbers,
`convert_all` (pool map + stable key sort) returns exactly the sequential
conversion ordered by ascending frame number. -/
theorem convert_all_eq_sequential (pil : PILStub) (load : List Char → Img) (width : ℕ)
    (color invert edge : Bool) (aspect edgeThreshold : ℚ) (charset : List Char)
    (paths : List (List Char)) (rs : List (ℤ × List Char))
    (hrs : paths.mapM
      (convert_frame pil load width color invert edge aspect edgeThreshold charset)
      = some rs)
    (hnd : (rs.map Prod.fst).Nodup) :
    convert_all pil load width color invert edge aspect edgeThreshold charset paths
      = convert_all_seq pil load width color invert edge aspect edgeThreshold charset paths := by
  unfold convert_all convert_all_seq
  rw [hrs]
  have hsort : rs.mergeSort (fun a b => decide (a.1 ≤ b.1))
      = List.insertionSort (fun a b => a.1 ≤ b.1) rs := by
    apply eq_of_perm_of_sorted_of_nodup_keys
    · exact (List.mergeSort_perm rs _).trans (List.perm_insertionSort _ rs).symm
    · have hs := @List.sorted_mergeSort (ℤ × List Char)
        (fun a b => decide (a.1 ≤ b.1))
        (fun a b c hab hbc => by
          simp only [decide_eq_true_eq] at *
          omega)
        (fun a b => by
          simp only [Bool.or_eq_true, decide_eq_true_eq]
          omega)
        rs
      exact hs.imp (fun h => by simpa using h)
    · haveI : IsTotal (ℤ × List Char) (fun a b => a.1 ≤ b.1) :=
        ⟨fun a b => le_total a.1 b.1⟩
      haveI : IsTrans (ℤ × List Char) (fun a b => a.1 ≤ b.1) :=
        ⟨fun _ _ _ hab hbc => le_trans hab hbc⟩
      exact List.sorted_insertionSort _ rs
    · exact ((List.mergeSort_perm rs _).map Prod.fst).nodup_iff.mpr hnd
  simp only [Option.bind_eq_bind, Option.some_bind, hsort]

def loadConst : List Char → Img := fun _ => [[(10, 10, 10)]]

unseal Rat.mul Rat.inv Rat.add Rat.sub Rat.ofScientific in
/-- C5 witness. -/
theorem convert_all_eq_sequential_witness :
    convert_all pilConst loadConst 1 false false false 1 (3 / 20) "classic".toList
        ["frame_000001.png".toList, "frame_000002.png".toList]
      = convert_all_seq pilConst loadConst 1 false false false 1 (3 / 20) "classic".toList
        ["frame_000001.png".toList, "frame_000002.png".toList] := by
  exact convert_all_eq_sequential _ _ _ _ _ _ _ _ _ _
    [(1, ['-', ' ']), (2, ['-', ' '])] (by decide) (by decide)

/-! ## C8 — SRT parsing (`subtitle.py`) -/

/-- Length of the `re.split` separator `\n\s*\n` matching at the head of
`l` (greedy `\s*` with backtracking: the last newline inside the
whitespace run after the leading newline ends the match). -/
def sepLen (l : List Char) : Option ℕ :=
  match l with
  | '\n' :: t =>
    let ws := t.takeWhile isSpacePy
    match ws.reverse.findIdx? (· == '\n') with
    | some j => some (1 + (ws.length - 1 - j) + 1)
    | none => none
  | _ => none

/-- Fuelled scanner for `re.split(r"\n\s*\n", content)`. -/
def blockSplitAux : ℕ → List Char → List (List Char)
  | 0, _ => [[]]
  | fuel + 1, l =>
    match l with
    | [] => [[]]
    | c :: t =>
      match sepLen (c :: t) with
      | some n => [] :: blockSplitAux fuel ((c :: t).drop n)
      | none =>
        match blockSplitAux fuel t with
        | [] => [[c]]
        | s :: ss => (c :: s) :: ss

/-- `re.split(r"\n\s*\n", content)`. -/
def blockSplitPy (l : List Char) : List (List Char) := blockSplitAux l.length l

/-- `_parse_timestamp` (`subtitle.py`): strip, replace `,` by `.`, split
on `:`, then `hours*3600 + minutes*60 + seconds`.  `none` models the
`ValueError`/`IndexError` that `parse_srt` catches. -/
def parse_timestamp (s : List Char) : Option ℚ :=
  let t := (pyStrip s).map (fun c => if c == ',' then '.' else c)
  match splitOnC ':' t with
  | p0 :: p1 :: p2 :: _ => do
    let h ← pyIntOpt p0
    let m ← pyIntOpt p1
    let sec ← pyFloatOpt p2
    pure ((h : ℚ) * 3600 + (m : ℚ) * 60 + sec)
  | _ => none

/-- Matcher for one `\d{2}:\d{2}:\d{2}[,.]\d{3}` group, returning the
matched characters and the remainder. -/
def matchTs : List Char → Option (List Char × List Char)
  | a :: b :: ':' :: c :: d :: ':' :: e :: f :: sep :: g :: h :: i :: rest =>
    if a.isDigit ∧ b.isDigit ∧ c.isDigit ∧ d.isDigit ∧ e.isDigit ∧ f.isDigit ∧
        (sep = ',' ∨ sep = '.') ∧ g.isDigit ∧ h.isDigit ∧ i.isDigit then
      some ([a, b, ':', c, d, ':', e, f, sep, g, h, i], rest)
    else none
  | _ => none

/-- `re.match` of the timestamp-line pattern
`(\d{2}:\d{2}:\d{2}[,.]\d{3})\s*-->\s*(\d{2}:\d{2}:\d{2}[,.]\d{3})`:
anchored at the start, trailing garbage allowed; returns the two groups. -/
def matchTsPair (l : List Char) : Option (List Char × List Char) := do
  let (g1, r1) ← matchTs l
  match r1.dropWhile isSpacePy with
  | '-' :: '-' :: '>' :: r3 =>
    let (g2, _) ← matchTs (r3.dropWhile isSpacePy)
    pure (g1, g2)
  | _ => none

/-- `" ".join(line.strip() for line in lines[2:] if line.strip())`. -/
def textJoin (ls : List (List Char)) : List Char :=
  List.intercalate [' '] ((ls.map pyStrip).filter (fun l => !l.isEmpty))

/-- Processing of one SRT block inside the `parse_srt` loop: skip blocks
with fewer than three lines, match the timestamp line, parse both
timestamps, join the non-blank text lines; emit a segment only when the
text is non-empty. -/
def parseBlock (b : List Char) : Option (ℚ × ℚ × List Char) :=
  match splitOnC '\n' (pyStrip b) with
  | _ :: l1 :: l2 :: rest =>
    match matchTsPair (pyStrip l1) with
    | none => none
    | some (g1, g2) =>
      match parse_timestamp g1, parse_timestamp g2 with
      | some v1, some v2 =>
        let text := textJoin (l2 :: rest)
        if text = [] then none else some (v1, v2, text)
      | _, _ => none
  | _ => none

/-- `parse_srt` (`subtitle.py`) on file content (the `OSError` path
returns `[]` before this point; total by construction, it never raises). -/
def parse_srt (content : List Char) : List (ℚ × ℚ × List Char) :=
  (blockSplitPy (pyStrip content)).filterMap parseBlock

/-- A zero-padded two-digit group. -/
def dig2 (n : ℕ) : List Char := [Nat.digitChar (n / 10), Nat.digitChar (n % 10)]

/-- A zero-padded three-digit group. -/
def dig3 (n : ℕ) : List Char :=
  [Nat.digitChar (n / 100), Nat.digitChar (n / 10 % 10), Nat.digitChar (n % 10)]

/-- The canonical `HH:MM:SS<sep>mmm` timestamp text. -/
def tsRender (hh mm ss ms : ℕ) (sep : Char) : List Char :=
  dig2 hh ++ ':' :: (dig2 mm ++ ':' :: (dig2 ss ++ sep :: dig3 ms))

theorem ne_of_isDigit {c : Char} (h : c.isDigit = true) {d : Char}
    (hd : d.isDigit = false) : c ≠ d := by
  intro he
  rw [he, hd] at h
  exact Bool.noConfusion h

theorem digitsVal_dig2 {n : ℕ} (h : n < 100) : digitsVal (dig2 n) = n := by
  show (0 * 10 + ((Nat.digitChar (n / 10)).toNat - 48)) * 10 +
    ((Nat.digitChar (n % 10)).toNat - 48) = n
  rw [digitChar_val (by omega), digitChar_val (by omega)]
  omega

theorem digitsVal_dig3 {n : ℕ} (h : n < 1000) : digitsVal (dig3 n) = n := by
  show ((0 * 10 + ((Nat.digitChar (n / 100)).toNat - 48)) * 10 +
    ((Nat.digitChar (n / 10 % 10)).toNat - 48)) * 10 + ((Nat.digitChar (n % 10)).toNat - 48) = n
  rw [digitChar_val (by omega), digitChar_val (by omega), digitChar_val (by omega)]
  omega

theorem dig2_digits {n : ℕ} (h : n < 100) : ∀ c ∈ dig2 n, c.isDigit = true := by
  intro c hc
  simp only [dig2, List.mem_cons, List.not_mem_nil, or_false] at hc
  rcases hc with rfl | rfl
  · exact digitChar_isDigit (by omega)
  · exact digitChar_isDigit (by omega)

theorem dig3_digits {n : ℕ} (h : n < 1000) : ∀ c ∈ dig3 n, c.isDigit = true := by
  intro c hc
  simp only [dig3, List.mem_cons, List.not_mem_nil, or_false] at hc
  rcases hc with rfl | rfl | rfl
  · exact digitChar_isDigit (by omega)
  · exact digitChar_isDigit (by omega)
  · exact digitChar_isDigit (by omega)

theorem dropWhile_all_false {p : Char → Bool} {l : List Char}
    (h : ∀ c ∈ l, p c = false) : l.dropWhile p = l := by
  cases l with
  | nil => rfl
  | cons c t => rw [List.dropWhile_cons, if_neg (by simp [h c (by simp)])]

theorem pyStrip_noop {l : List Char} (h : ∀ c ∈ l, isSpacePy c = false) :
    pyStrip l = l := by
  unfold pyStrip pyLstrip pyRstrip
  rw [dropWhile_all_false h, dropWhile_all_false (fun c hc => h c (List.mem_reverse.mp hc)),
    List.reverse_reverse]

theorem pyIntOpt_digits {l : List Char} (hne : l ≠ [])
    (hd : ∀ c ∈ l, c.isDigit = true) : pyIntOpt l = some (digitsVal l : ℤ) := by
  unfold pyIntOpt
  rw [pyStrip_noop (fun c hc => isDigit_not_space (hd c hc))]
  have hall : l.all Char.isDigit = true := List.all_eq_true.mpr hd
  split
  · exact absurd (hd '-' (by simp)) (by decide)
  · exact absurd (hd '+' (by simp)) (by decide)
  · rw [if_pos ⟨hne, hall⟩]

theorem pyFloatOpt_digits {a b : List Char} (hne : a ≠ [] ∨ b ≠ [])
    (ha : ∀ c ∈ a, c.isDigit = true) (hb : ∀ c ∈ b, c.isDigit = true) :
    pyFloatOpt (a ++ '.' :: b) = some ((digitsVal a : ℚ) + (digitsVal b : ℚ) / 10 ^ b.length) := by
  unfold pyFloatOpt
  have hnos : ∀ c ∈ a ++ '.' :: b, isSpacePy c = false := by
    intro c hc
    rcases List.mem_append.mp hc with hc | hc
    · exact isDigit_not_space (ha c hc)
    · rcases List.mem_cons.mp hc with rfl | hc
      · decide
      · exact isDigit_not_space (hb c hc)
  rw [pyStrip_noop hnos, splitOnC_append_sep,
    splitOnC_sepFree (fun c hc => ne_of_isDigit (ha c hc) (by decide)),
    splitOnC_sepFree (fun c hc => ne_of_isDigit (hb c hc) (by decide))]
  simp only [List.cons_append, List.nil_append]
  rw [if_pos ⟨hne, List.all_eq_true.mpr ha, List.all_eq_true.mpr hb⟩]

theorem tsRender_no_space {hh mm ss ms : ℕ} {sep : Char}
    (hhh : hh < 100) (hmm : mm < 100) (hss : ss < 100) (hms : ms < 1000)
    (hsep : sep = ',' ∨ sep = '.') :
    ∀ c ∈ tsRender hh mm ss ms sep, isSpacePy c = false := by
  intro c hc
  simp only [tsRender, List.mem_append, List.mem_cons] at hc
  rcases hc with hc | hc | hc | hc | hc | hc
  · exact isDigit_not_space (dig2_digits hhh c hc)
  · subst hc; decide
  · exact isDigit_not_space (dig2_digits hmm c hc)
  · subst hc; decide
  · exact isDigit_not_space (dig2_digits hss c hc)
  · rcases hc with hc | hc
    · subst hc; rcases hsep with rfl | rfl <;> decide
    · exact isDigit_not_space (dig3_digits hms c hc)

theorem map_replace_comma_of_digits {l : List Char} (h : ∀ c ∈ l, c.isDigit = true) :
    l.map (fun c => if c == ',' then '.' else c) = l := by
  induction l with
  | nil => rfl
  | cons c t ih =>
    rw [List.map_cons, ih (fun x hx => h x (by simp [hx]))]
    have hc : c ≠ ',' := ne_of_isDigit (h c (by simp)) (by decide)
    simp [hc]

theorem parse_timestamp_tsRender {hh mm ss ms : ℕ} {sep : Char}
    (hhh : hh < 100) (hmm : mm < 100) (hss : ss < 100) (hms : ms < 1000)
    (hsep : sep = ',' ∨ sep = '.') :
    parse_timestamp (tsRender hh mm ss ms sep)
      = some ((hh : ℚ) * 3600 + (mm : ℚ) * 60 + ((ss : ℚ) + (ms : ℚ) / 1000)) := by
  unfold parse_timestamp
  rw [pyStrip_noop (tsRender_no_space hhh hmm hss hms hsep)]
  have hsepmap : (if sep == ',' then '.' else sep) = '.' := by
    rcases hsep with rfl | rfl <;> decide
  have hcolonmap : (if ':' == ',' then '.' else ':') = ':' := by decide
  have hmap : (tsRender hh mm ss ms sep).map (fun c => if c == ',' then '.' else c)
      = dig2 hh ++ ':' :: (dig2 mm ++ ':' :: (dig2 ss ++ '.' :: dig3 ms)) := by
    show (dig2 hh ++ ':' :: (dig2 mm ++ ':' :: (dig2 ss ++ sep :: dig3 ms))).map _ = _
    rw [List.map_append, List.map_cons, List.map_append, List.map_cons,
      List.map_append, List.map_cons]
    rw [map_replace_comma_of_digits (dig2_digits hhh),
      map_replace_comma_of_digits (dig2_digits hmm),
      map_replace_comma_of_digits (dig2_digits hss),
      map_replace_comma_of_digits (dig3_digits hms), hsepmap, hcolonmap]
  rw [hmap]
  dsimp only
  have hsplit : splitOnC ':' (dig2 hh ++ ':' :: (dig2 mm ++ ':' :: (dig2 ss ++ '.' :: dig3 ms)))
      = [dig2 hh, dig2 mm, dig2 ss ++ '.' :: dig3 ms] := by
    rw [splitOnC_append_sep, splitOnC_append_sep,
      splitOnC_sepFree (fun c hc => ne_of_isDigit (dig2_digits hhh c hc) (by decide)),
      splitOnC_sepFree (fun c hc => ne_of_isDigit (dig2_digits hmm c hc) (by decide)),
      splitOnC_sepFree (fun c hc => by
        rcases List.mem_append.mp hc with hc | hc
        · exact ne_of_isDigit (dig2_digits hss c hc) (by decide)
        · rcases List.mem_cons.mp hc with rfl | hc
          · decide
          · exact ne_of_isDigit (dig3_digits hms c hc) (by decide))]
    rfl
  rw [hsplit]
  rw [show ([dig2 hh, dig2 mm, dig2 ss ++ '.' :: dig3 ms] : List (List Char))
      = dig2 hh :: dig2 mm :: (dig2 ss ++ '.' :: dig3 ms) :: [] from rfl]
  simp only
  rw [pyIntOpt_digits (by simp [dig2]) (dig2_digits hhh),
    pyIntOpt_digits (by simp [dig2]) (dig2_digits hmm),
    pyFloatOpt_digits (Or.inl (by simp [dig2])) (dig2_digits hss) (dig3_digits hms)]
  simp only [Option.bind_eq_bind, Option.some_bind, Option.some.injEq]
  rw [digitsVal_dig2 hhh, digitsVal_dig2 hmm, digitsVal_dig2 hss, digitsVal_dig3 hms,
    show (dig3 ms).length = 3 from rfl]
  simp only [Option.pure_def, Option.some.injEq]
  push_cast
  ring

theorem matchTs_tsRender {hh mm ss ms : ℕ} {sep : Char} (rest : List Char)
    (hhh : hh < 100) (hmm : mm < 100) (hss : ss < 100) (hms : ms < 1000)
    (hsep : sep = ',' ∨ sep = '.') :
    matchTs (tsRender hh mm ss ms sep ++ rest)
      = some (tsRender hh mm ss ms sep, rest) := by
  show matchTs (Nat.digitChar (hh / 10) :: Nat.digitChar (hh % 10) :: ':' ::
      Nat.digitChar (mm / 10) :: Nat.digitChar (mm % 10) :: ':' ::
      Nat.digitChar (ss / 10) :: Nat.digitChar (ss % 10) :: sep ::
      Nat.digitChar (ms / 100) :: Nat.digitChar (ms / 10 % 10) :: Nat.digitChar (ms % 10)
      :: rest) = _
  rw [matchTs]
  rw [if_pos ⟨digitChar_isDigit (by omega), digitChar_isDigit (by omega),
    digitChar_isDigit (by omega), digitChar_isDigit (by omega),
    digitChar_isDigit (by omega), digitChar_isDigit (by omega), hsep,
    digitChar_isDigit (by omega), digitChar_isDigit (by omega),
    digitChar_isDigit (by omega)⟩]
  rfl

theorem matchTsPair_tsRender {hh₁ mm₁ ss₁ ms₁ hh₂ mm₂ ss₂ ms₂ : ℕ}
    {sep₁ sep₂ : Char} (trail : List Char)
    (h₁ : hh₁ < 100) (h₂ : mm₁ < 100) (h₃ : ss₁ < 100) (h₄ : ms₁ < 1000)
    (h₅ : hh₂ < 100) (h₆ : mm₂ < 100) (h₇ : ss₂ < 100) (h₈ : ms₂ < 1000)
    (hsep₁ : sep₁ = ',' ∨ sep₁ = '.') (hsep₂ : sep₂ = ',' ∨ sep₂ = '.') :
    matchTsPair (tsRender hh₁ mm₁ ss₁ ms₁ sep₁ ++
        ' ' :: '-' :: '-' :: '>' :: ' ' :: (tsRender hh₂ mm₂ ss₂ ms₂ sep₂ ++ trail))
      = some (tsRender hh₁ mm₁ ss₁ ms₁ sep₁, tsRender hh₂ mm₂ ss₂ ms₂ sep₂) := by
  unfold matchTsPair
  rw [matchTs_tsRender _ h₁ h₂ h₃ h₄ hsep₁]
  simp only [Option.bind_eq_bind, Option.some_bind]
  have hdw1 : (' ' :: '-' :: '-' :: '>' :: ' ' ::
      (tsRender hh₂ mm₂ ss₂ ms₂ sep₂ ++ trail)).dropWhile isSpacePy
      = '-' :: '-' :: '>' :: ' ' :: (tsRender hh₂ mm₂ ss₂ ms₂ sep₂ ++ trail) := by
    rw [List.dropWhile_cons, if_pos (by decide), List.dropWhile_cons, if_neg (by decide)]
  rw [hdw1]
  have hdw2 : (' ' :: (tsRender hh₂ mm₂ ss₂ ms₂ sep₂ ++ trail)).dropWhile isSpacePy
      = tsRender hh₂ mm₂ ss₂ ms₂ sep₂ ++ trail := by
    rw [List.dropWhile_cons, if_pos (by decide)]
    show (Nat.digitChar (hh₂ / 10) :: _).dropWhile isSpacePy = _
    rw [List.dropWhile_cons,
      if_neg (by simp [isDigit_not_space (digitChar_isDigit (show hh₂ / 10 < 10 by omega))])]
    rfl
  simp only
  rw [hdw2, matchTs_tsRender _ h₅ h₆ h₇ h₈ hsep₂]
  rfl

theorem parseBlock_short {b : List Char} (h : (splitOnC '\n' (pyStrip b)).length < 3) :
    parseBlock b = none := by
  unfold parseBlock
  split
  · rename_i heq
    rw [heq] at h
    exact absurd h (by simp)
  · rfl

theorem parseBlock_pos {b l₀ l₁ l₂ : List Char} {rest : List (List Char)}
    {g₁ g₂ : List Char} {v₁ v₂ : ℚ}
    (hlines : splitOnC '\n' (pyStrip b) = l₀ :: l₁ :: l₂ :: rest)
    (hts : matchTsPair (pyStrip l₁) = some (g₁, g₂))
    (hv₁ : parse_timestamp g₁ = some v₁) (hv₂ : parse_timestamp g₂ = some v₂)
    (htext : textJoin (l₂ :: rest) ≠ []) :
    parseBlock b = some (v₁, v₂, textJoin (l₂ :: rest)) := by
  unfold parseBlock
  rw [hlines]
  simp only [hts, hv₁, hv₂]
  rw [if_neg htext]

theorem parseBlock_bad_ts {b l₀ l₁ l₂ : List Char} {rest : List (List Char)}
    (hlines : splitOnC '\n' (pyStrip b) = l₀ :: l₁ :: l₂ :: rest)
    (hts : matchTsPair (pyStrip l₁) = none) :
    parseBlock b = none := by
  unfold parseBlock
  rw [hlines]
  simp only [hts]

/-- C8: `_parse_timestamp` maps `HH:MM:SS<,.>mmm` to
`HH*3600 + MM*60 + SS.mmm` seconds; `parse_srt` produces exactly one
segment with these values for every block whose second line matches the
timestamp pattern and that has a non-blank text line (the segment lands in
the `parse_srt` output); blocks with fewer than three lines, or with a
timestamp line the pattern does not match, are skipped.  (`parse_srt` is
total by construction: every failure branch yields a skip, never an
exception.) -/
theorem srt_timestamp_and_blocks
    (hh₁ mm₁ ss₁ ms₁ hh₂ mm₂ ss₂ ms₂ : ℕ) (sep₁ sep₂ : Char) (trail : List Char)
    (content b bShort bBad : List Char) (l₀ l₁ l₂ : List Char) (rest : List (List Char))
    (g₁ g₂ : List Char) (v₁ v₂ : ℚ) (m₀ m₁ m₂ : List Char) (mrest : List (List Char))
    (h₁ : hh₁ < 100) (h₂ : mm₁ < 100) (h₃ : ss₁ < 100) (h₄ : ms₁ < 1000)
    (h₅ : hh₂ < 100) (h₆ : mm₂ < 100) (h₇ : ss₂ < 100) (h₈ : ms₂ < 1000)
    (hsep₁ : sep₁ = ',' ∨ sep₁ = '.') (hsep₂ : sep₂ = ',' ∨ sep₂ = '.')
    (hbmem : b ∈ blockSplitPy (pyStrip content))
    (hlines : splitOnC '\n' (pyStrip b) = l₀ :: l₁ :: l₂ :: rest)
    (hts : matchTsPair (pyStrip l₁) = some (g₁, g₂))
    (hv₁ : parse_timestamp g₁ = some v₁) (hv₂ : parse_timestamp g₂ = some v₂)
    (htext : textJoin (l₂ :: rest) ≠ [])
    (hshort : (splitOnC '\n' (pyStrip bShort)).length < 3)
    (hbadlines : splitOnC '\n' (pyStrip bBad) = m₀ :: m₁ :: m₂ :: mrest)
    (hbadts : matchTsPair (pyStrip m₁) = none) :
    parse_timestamp (tsRender hh₁ mm₁ ss₁ ms₁ sep₁)
      = some ((hh₁ : ℚ) * 3600 + (mm₁ : ℚ) * 60 + ((ss₁ : ℚ) + (ms₁ : ℚ) / 1000)) ∧
    matchTsPair (tsRender hh₁ mm₁ ss₁ ms₁ sep₁ ++
        ' ' :: '-' :: '-' :: '>' :: ' ' :: (tsRender hh₂ mm₂ ss₂ ms₂ sep₂ ++ trail))
      = some (tsRender hh₁ mm₁ ss₁ ms₁ sep₁, tsRender hh₂ mm₂ ss₂ ms₂ sep₂) ∧
    parseBlock b = some (v₁, v₂, textJoin (l₂ :: rest)) ∧
    (v₁, v₂, textJoin (l₂ :: rest)) ∈ parse_srt content ∧
    parseBlock bShort = none ∧
    parseBlock bBad = none := by
  refine ⟨parse_timestamp_tsRender h₁ h₂ h₃ h₄ hsep₁,
    matchTsPair_tsRender trail h₁ h₂ h₃ h₄ h₅ h₆ h₇ h₈ hsep₁ hsep₂,
    parseBlock_pos hlines hts hv₁ hv₂ htext, ?_,
    parseBlock_short hshort, parseBlock_bad_ts hbadlines hbadts⟩
  unfold parse_srt
  exact List.mem_filterMap.mpr ⟨b, hbmem, parseBlock_pos hlines hts hv₁ hv₂ htext⟩

unseal Rat.mul Rat.inv Rat.add Rat.sub Rat.ofScientific in
/-- C8 witness. -/
theorem srt_timestamp_and_blocks_witness :
    parse_timestamp (tsRender 0 0 1 0 ',')
      = some ((0 : ℚ) * 3600 + (0 : ℚ) * 60 + ((1 : ℚ) + (0 : ℚ) / 1000)) ∧
    matchTsPair (tsRender 0 0 1 0 ',' ++
        ' ' :: '-' :: '-' :: '>' :: ' ' :: (tsRender 0 0 2 500 ',' ++ []))
      = some (tsRender 0 0 1 0 ',', tsRender 0 0 2 500 ',') ∧
    parseBlock "1\n00:00:01,000 --> 00:00:02,500\nHello world".toList
      = some (1, 5 / 2, textJoin ("Hello world".toList :: [])) ∧
    ((1 : ℚ), (5 / 2 : ℚ), textJoin ("Hello world".toList :: []))
      ∈ parse_srt "1\n00:00:01,000 --> 00:00:02,500\nHello world\n\n2\nnot a timestamp\ntext".toList ∧
    parseBlock "2\nbad".toList = none ∧
    parseBlock "9\nnot a timestamp\ntext".toList = none := by
  have h := srt_timestamp_and_blocks 0 0 1 0 0 0 2 500 ',' ',' []
    "1\n00:00:01,000 --> 00:00:02,500\nHello world\n\n2\nnot a timestamp\ntext".toList
    "1\n00:00:01,000 --> 00:00:02,500\nHello world".toList
    "2\nbad".toList "9\nnot a timestamp\ntext".toList
    "1".toList "00:00:01,000 --> 00:00:02,500".toList "Hello world".toList []
    "00:00:01,000".toList "00:00:02,500".toList 1 (5 / 2)
    "9".toList "not a timestamp".toList "text".toList []
    (by norm_num) (by norm_num) (by norm_num) (by norm_num)
    (by norm_num) (by norm_num) (by norm_num) (by norm_num)
    (Or.inl rfl) (Or.inl rfl)
    (by decide) (by decide) (by decide) (by decide) (by decide)
    (by decide) (by decide) (by decide) (by decide)
  exact h

/-! ## C6 — ANSI truecolor round trip
(converter emitter → MP4 renderer parser → web HTML renderer parser) -/

/-- Python `sub in code` substring test. -/
def containsSub (pat : List Char) : List Char → Bool
  | [] => pat.isPrefixOf []
  | c :: t => pat.isPrefixOf (c :: t) || containsSub pat t

/-- The ANSI-code handler inside the parsing loop of `render_ascii_frame`
(`mp4_exporter.py`): a reset restores white; a code containing `;2;` with
at least five `;`-separated parts yields `(int(parts[2]), int(parts[3]),
int(parts[4].rstrip("m")))` (tinted when `crt`); anything else leaves the
current color unchanged.  Channels are naturals here (every code the
converter emits carries decimal naturals). -/
def parseAnsiCode (crt : Bool) (code : List Char) (cur : Rgb) : Rgb :=
  if code = resetSeq then (255, 255, 255)
  else if containsSub [';', '2', ';'] code then
    match splitOnC ';' code with
    | _ :: _ :: p2 :: p3 :: p4 :: _ =>
      match pyIntOpt p2, pyIntOpt p3, pyIntOpt (rstripChar 'm' p4) with
      | some r, some g, some b =>
        if crt then crt_tint_mp4 r.toNat g.toNat b.toNat
        else (r.toNat, g.toNat, b.toNat)
      | _, _, _ => cur
    | _ => cur
  else cur

/-- Fuelled scanner for the character/ANSI loop of `render_ascii_frame`:
`ESC[`…`m` spans update the current color via `parseAnsiCode` (an
unterminated `ESC` is skipped undrawn); any other character is drawn with
the current color.  The result records each drawn glyph with the parser
state at draw time (before the brightness boost, which is applied to the
fill color afterwards). -/
def scanLineAux : ℕ → Bool → List Char → Rgb → List (Char × Rgb)
  | 0, _, _, _ => []
  | _ + 1, _, [], _ => []
  | fuel + 1, crt, c :: t, cur =>
    if c = ESC ∧ t.head? = some '[' then
      match (c :: t).findIdx? (· == 'm') with
      | some e =>
        scanLineAux fuel crt ((c :: t).drop (e + 1))
          (parseAnsiCode crt ((c :: t).take (e + 1)) cur)
      | none => scanLineAux fuel crt t cur
    else if c = ESC then scanLineAux fuel crt t cur
    else (c, cur) :: scanLineAux fuel crt t cur

def scanLine (crt : Bool) (l : List Char) (cur : Rgb) : List (Char × Rgb) :=
  scanLineAux l.length crt l cur

/-- One action recognized by the `ansi_to_html` regex
`\033\[(?:38;2;(\d+);(\d+);(\d+)|48;2;(\d+);(\d+);(\d+)|0)m`. -/
inductive AnsiAct : Type
  | setFg (r g b : ℕ)
  | setBg (r g b : ℕ)
  | reset

/-- `\d+;\d+;\d+m` — the three color groups of the regex (each `\d+`
greedy, followed by the literal separator). -/
def parseTriple (r : List Char) : Option ((ℕ × ℕ × ℕ) × List Char) :=
  let d1 := r.takeWhile Char.isDigit
  let r1 := r.drop d1.length
  if d1 = [] ∨ r1.head? ≠ some ';' then none
  else
    let r2 := r1.tail
    let d2 := r2.takeWhile Char.isDigit
    let r3 := r2.drop d2.length
    if d2 = [] ∨ r3.head? ≠ some ';' then none
    else
      let r4 := r3.tail
      let d3 := r4.takeWhile Char.isDigit
      let r5 := r4.drop d3.length
      if d3 = [] ∨ r5.head? ≠ some 'm' then none
      else some ((digitsVal d1, digitsVal d2, digitsVal d3), r5.tail)

/-- Try to match the `ansi_to_html` regex at the head of the text. -/
def matchAnsiPy : List Char → Option (AnsiAct × List Char)
  | '\x1b' :: '[' :: '0' :: 'm' :: r => some (.reset, r)
  | '\x1b' :: '[' :: '3' :: '8' :: ';' :: '2' :: ';' :: r =>
    match parseTriple r with
    | some ((a, b, c), rest) => some (.setFg a b c, rest)
    | none => none
  | '\x1b' :: '[' :: '4' :: '8' :: ';' :: '2' :: ';' :: r =>
    match parseTriple r with
    | some ((a, b, c), rest) => some (.setBg a b c, rest)
    | none => none
  | _ => none

def applyAnsiAct : AnsiAct → Option Rgb × Option Rgb → Option Rgb × Option Rgb
  | .setFg r g b, s => (some (r, g, b), s.2)
  | .setBg r g b, s => (s.1, some (r, g, b))
  | .reset, _ => (none, none)

/-- Fuelled embedding of the `finditer` loop of `ansi_to_html`
(`web/renderer.py`): the text is cut at each regex match, and every
non-empty stretch of text is wrapped as one segment with the current
foreground/background colors. -/
def segmentizeAux : ℕ → List Char → Option Rgb → Option Rgb → List Char →
    List (List Char × Option Rgb × Option Rgb)
  | 0, _, fg, bg, pending =>
    if pending = [] then [] else [(pending.reverse, fg, bg)]
  | _ + 1, [], fg, bg, pending =>
    if pending = [] then [] else [(pending.reverse, fg, bg)]
  | fuel + 1, c :: t, fg, bg, pending =>
    match matchAnsiPy (c :: t) with
    | some (act, rest) =>
      (if pending = [] then [] else [(pending.reverse, fg, bg)]) ++
        segmentizeAux fuel rest (applyAnsiAct act (fg, bg)).1
          (applyAnsiAct act (fg, bg)).2 []
    | none => segmentizeAux fuel t fg bg (c :: pending)

/-- The list of `(text, color, background)` segments that `ansi_to_html`
wraps in `<span>`s. -/
def ansiSegments (l : List Char) : List (List Char × Option Rgb × Option Rgb) :=
  segmentizeAux l.length l none none []

theorem takeWhile_all_through {p : Char → Bool} {a : List Char} {c : Char} (b : List Char)
    (ha : ∀ x ∈ a, p x = true) (hc : p c = false) :
    (a ++ c :: b).takeWhile p = a := by
  induction a with
  | nil => rw [List.nil_append, List.takeWhile_cons, if_neg (by simp [hc])]
  | cons x t ih =>
    rw [List.cons_append, List.takeWhile_cons, if_pos (by simp [ha x (by simp)]),
      ih (fun y hy => ha y (by simp [hy]))]

theorem findIdx?_first {p : Char → Bool} {m : Char} (hm : p m = true) :
    ∀ (a : List Char) (b : List Char) (i : ℕ), (∀ c ∈ a, p c = false) →
      (a ++ m :: b).findIdx? p i = some (i + a.length) := by
  intro a
  induction a with
  | nil =>
    intro b i _
    rw [List.nil_append, List.findIdx?_cons, if_pos (by simp [hm])]
    simp
  | cons c t ih =>
    intro b i ha
    rw [List.cons_append, List.findIdx?_cons, if_neg (by simp [ha c (by simp)]),
      ih b (i + 1) (fun y hy => ha y (by simp [hy]))]
    congr 1
    simp
    omega

/-- The `m`-free part of an emitted truecolor code. -/
def fgSeqHead (r g b : ℕ) : List Char :=
  ESC :: '[' :: '3' :: '8' :: ';' :: '2' :: ';' ::
    (toDecChars r ++ ';' :: (toDecChars g ++ ';' :: toDecChars b))

theorem fgSeq_eq_head_m (r g b : ℕ) : fgSeq r g b = fgSeqHead r g b ++ ['m'] := by
  simp [fgSeq, fgSeqHead]

theorem fgSeqHead_no_m (r g b : ℕ) : ∀ c ∈ fgSeqHead r g b, (c == 'm') = false := by
  intro c hc
  simp only [fgSeqHead, List.mem_cons, List.mem_append] at hc
  rcases hc with rfl | rfl | rfl | rfl | rfl | rfl | rfl | hc | rfl | hc | rfl | hc
  iterate 7 decide
  · exact beq_eq_false_iff_ne.mpr (ne_of_isDigit (toDecChars_digits r c hc) (by decide))
  · decide
  · exact beq_eq_false_iff_ne.mpr (ne_of_isDigit (toDecChars_digits g c hc) (by decide))
  · decide
  · exact beq_eq_false_iff_ne.mpr (ne_of_isDigit (toDecChars_digits b c hc) (by decide))

theorem rstripChar_digits_append {l : List Char} (h : ∀ c ∈ l, c.isDigit = true) :
    rstripChar 'm' (l ++ ['m']) = l := by
  unfold rstripChar
  rw [List.reverse_append, show (['m'] : List Char).reverse = ['m'] from rfl,
    List.singleton_append, List.dropWhile_cons, if_pos (by decide),
    dropWhile_all_false (fun c hc =>
      beq_eq_false_iff_ne.mpr
        (ne_of_isDigit (h c (List.mem_reverse.mp hc)) (by decide))),
    List.reverse_reverse]

theorem parseAnsiCode_reset (crt : Bool) (cur : Rgb) :
    parseAnsiCode crt resetSeq cur = (255, 255, 255) := by
  unfold parseAnsiCode
  rw [if_pos rfl]

theorem parseAnsiCode_fgSeq (r g b : ℕ) (cur : Rgb) :
    parseAnsiCode false (fgSeq r g b) cur = (r, g, b) := by
  unfold parseAnsiCode
  rw [if_neg (by simp [fgSeq, resetSeq]), if_pos (by
    simp [fgSeq, containsSub, List.isPrefixOf])]
  have hsplit : splitOnC ';' (fgSeq r g b)
      = [[ESC, '[', '3', '8'], ['2'], toDecChars r, toDecChars g,
         toDecChars b ++ ['m']] := by
    rw [show fgSeq r g b = [ESC, '[', '3', '8'] ++ ';' :: (['2'] ++ ';' ::
        (toDecChars r ++ ';' :: (toDecChars g ++ ';' :: (toDecChars b ++ ['m']))))
      from by simp [fgSeq]]
    rw [splitOnC_append_sep, splitOnC_append_sep, splitOnC_append_sep,
      splitOnC_append_sep,
      splitOnC_sepFree (l := [ESC, '[', '3', '8']) (by decide),
      splitOnC_sepFree (l := ['2']) (by decide),
      splitOnC_sepFree (fun c hc => ne_of_isDigit (toDecChars_digits r c hc) (by decide)),
      splitOnC_sepFree (fun c hc => ne_of_isDigit (toDecChars_digits g c hc) (by decide)),
      splitOnC_sepFree (fun c hc => by
        rcases List.mem_append.mp hc with hc | hc
        · exact ne_of_isDigit (toDecChars_digits b c hc) (by decide)
        · simp only [List.mem_singleton] at hc
          subst hc
          decide)]
    rfl
  rw [hsplit]
  simp only
  rw [pyIntOpt_digits (toDecChars_ne_nil r) (toDecChars_digits r),
    pyIntOpt_digits (toDecChars_ne_nil g) (toDecChars_digits g),
    rstripChar_digits_append (toDecChars_digits b),
    pyIntOpt_digits (toDecChars_ne_nil b) (toDecChars_digits b)]
  simp only [digitsVal_toDecChars, Int.toNat_natCast]
  rfl

theorem scanLineAux_irrel (crt : Bool) :
    ∀ (n : ℕ) (l : List Char), l.length ≤ n → ∀ (f₁ f₂ : ℕ) (cur : Rgb),
      l.length ≤ f₁ → l.length ≤ f₂ →
      scanLineAux f₁ crt l cur = scanLineAux f₂ crt l cur := by
  intro n
  induction n with
  | zero =>
    intro l hl f₁ f₂ cur h₁ h₂
    have : l = [] := List.eq_nil_of_length_eq_zero (by omega)
    subst this
    cases f₁ <;> cases f₂ <;> rfl
  | succ n ih =>
    intro l hl f₁ f₂ cur h₁ h₂
    cases l with
    | nil => cases f₁ <;> cases f₂ <;> rfl
    | cons c t =>
      match f₁, f₂, h₁, h₂ with
      | g₁ + 1, g₂ + 1, h₁, h₂ =>
        simp only [scanLineAux]
        split
        · cases hfi : (c :: t).findIdx? (· == 'm') with
          | some e =>
            apply ih
            · have := List.length_drop (e + 1) (c :: t)
              simp only [List.length_cons] at *
              omega
            · have := List.length_drop (e + 1) (c :: t)
              simp only [List.length_cons] at *
              omega
            · have := List.length_drop (e + 1) (c :: t)
              simp only [List.length_cons] at *
              omega
          | none =>
            apply ih <;> simp only [List.length_cons] at * <;> omega
        · split
          · apply ih <;> simp only [List.length_cons] at * <;> omega
          · rw [ih t (by simp at hl; omega) g₁ g₂ cur (by simp at h₁; omega)
              (by simp at h₂; omega)]

theorem scanLine_draw {c : Char} (hc : ¬c = ESC) (crt : Bool) (t : List Char) (cur : Rgb) :
    scanLine crt (c :: t) cur = (c, cur) :: scanLine crt t cur := by
  unfold scanLine
  show scanLineAux (t.length + 1) crt (c :: t) cur = _
  simp only [scanLineAux]
  rw [if_neg (by simp [hc]), if_neg hc]

theorem scanLine_fg (crt : Bool) (r g b : ℕ) (after : List Char) (cur : Rgb) :
    scanLine crt (fgSeq r g b ++ after) cur
      = scanLine crt after (parseAnsiCode crt (fgSeq r g b) cur) := by
  unfold scanLine
  have hlen : (fgSeq r g b ++ after).length
      = (fgSeqHead r g b).length + after.length + 1 := by
    rw [fgSeq_eq_head_m]
    simp
    omega
  rw [hlen]
  have hform : fgSeq r g b ++ after
      = ESC :: '[' :: ('3' :: '8' :: ';' :: '2' :: ';' ::
          ((toDecChars r ++ ';' :: (toDecChars g ++ ';' :: toDecChars b)) ++ 'm' :: after)) := by
    rw [fgSeq_eq_head_m]
    simp [fgSeqHead]
  rw [hform]
  simp only [scanLineAux]
  rw [if_pos (by simp)]
  have hback : (ESC :: '[' :: ('3' :: '8' :: ';' :: '2' :: ';' ::
      ((toDecChars r ++ ';' :: (toDecChars g ++ ';' :: toDecChars b)) ++ 'm' :: after)))
      = fgSeqHead r g b ++ 'm' :: after := by
    simp [fgSeqHead]
  rw [hback, findIdx?_first (by decide) (fgSeqHead r g b) after 0 (fun c hc => by
    simpa using fgSeqHead_no_m r g b c hc)]
  simp only [Nat.zero_add]
  have hsplit2 : fgSeqHead r g b ++ 'm' :: after = (fgSeqHead r g b ++ ['m']) ++ after := by
    simp
  rw [hsplit2, List.take_left' (by simp), List.drop_left' (by simp), ← fgSeq_eq_head_m]
  apply scanLineAux_irrel crt ((fgSeqHead r g b).length + after.length)
  · omega
  · omega
  · omega

theorem scanLine_reset (crt : Bool) (after : List Char) (cur : Rgb) :
    scanLine crt (resetSeq ++ after) cur = scanLine crt after (255, 255, 255) := by
  unfold scanLine
  show scanLineAux (after.length + 4) crt (ESC :: '[' :: '0' :: 'm' :: after) cur = _
  simp only [scanLineAux]
  rw [if_pos (by simp)]
  rw [show (ESC :: '[' :: '0' :: 'm' :: after : List Char)
      = [ESC, '[', '0'] ++ 'm' :: after from rfl,
    findIdx?_first (by decide) [ESC, '[', '0'] after 0 (by decide)]
  simp only [Nat.zero_add]
  rw [show ([ESC, '[', '0'] : List Char) ++ 'm' :: after
      = ([ESC, '[', '0', 'm'] : List Char) ++ after from rfl,
    List.take_left' (by simp), List.drop_left' (by simp)]
  rw [show ([ESC, '[', '0', 'm'] : List Char) = resetSeq from rfl, parseAnsiCode_reset]
  apply scanLineAux_irrel crt (after.length + 3) <;> omega

theorem scanLine_color_pixel (chars : List Char) (p : Rgb) (rest : List Char)
    (cur : Rgb) (hg : ¬glyphFor chars (avgBrightness p) = ESC) :
    scanLine false (ascii_color_pixel chars p ++ rest) cur
      = (glyphFor chars (avgBrightness p), p) :: scanLine false rest (255, 255, 255) := by
  unfold ascii_color_pixel
  rw [List.append_assoc, scanLine_fg, parseAnsiCode_fgSeq, List.cons_append,
    scanLine_draw hg, scanLine_reset]

theorem scanLine_color_line (chars : List Char) (row : List Rgb)
    (hg : ∀ p ∈ row, ¬glyphFor chars (avgBrightness p) = ESC) :
    scanLine false (ascii_color_line chars row) (255, 255, 255)
      = row.map (fun p => (glyphFor chars (avgBrightness p), p)) := by
  induction row with
  | nil => rfl
  | cons p row' ih =>
    unfold ascii_color_line
    rw [List.flatMap_cons]
    rw [show (row'.flatMap (ascii_color_pixel chars)) = ascii_color_line chars row' from rfl]
    rw [scanLine_color_pixel chars p _ _ (hg p (by simp)),
      ih (fun q hq => hg q (by simp [hq]))]
    rfl

theorem parseTriple_digits {a b c : List Char} (tail : List Char)
    (hane : a ≠ []) (ha : ∀ x ∈ a, x.isDigit = true)
    (hbne : b ≠ []) (hb : ∀ x ∈ b, x.isDigit = true)
    (hcne : c ≠ []) (hc : ∀ x ∈ c, x.isDigit = true) :
    parseTriple (a ++ ';' :: (b ++ ';' :: (c ++ 'm' :: tail)))
      = some ((digitsVal a, digitsVal b, digitsVal c), tail) := by
  obtain ⟨a0, as, rfl⟩ : ∃ a0 as, a = a0 :: as := by
    cases a with
    | nil => exact absurd rfl hane
    | cons a0 as => exact ⟨a0, as, rfl⟩
  obtain ⟨b0, bs, rfl⟩ : ∃ b0 bs, b = b0 :: bs := by
    cases b with
    | nil => exact absurd rfl hbne
    | cons b0 bs => exact ⟨b0, bs, rfl⟩
  obtain ⟨c0, cs, rfl⟩ : ∃ c0 cs, c = c0 :: cs := by
    cases c with
    | nil => exact absurd rfl hcne
    | cons c0 cs => exact ⟨c0, cs, rfl⟩
  unfold parseTriple
  dsimp only
  rw [takeWhile_all_through _ ha (by decide), List.drop_left' rfl]
  rw [if_neg (by simp)]
  simp only [List.tail_cons]
  rw [takeWhile_all_through _ hb (by decide), List.drop_left' rfl]
  rw [if_neg (by simp)]
  simp only [List.tail_cons]
  rw [takeWhile_all_through _ hc (by decide), List.drop_left' rfl]
  rw [if_neg (by simp)]
  simp only [List.tail_cons]

theorem matchAnsiPy_fgSeq (r g b : ℕ) (tail : List Char) :
    matchAnsiPy (fgSeq r g b ++ tail) = some (.setFg r g b, tail) := by
  have hform : fgSeq r g b ++ tail
      = '\x1b' :: '[' :: '3' :: '8' :: ';' :: '2' :: ';' ::
          (toDecChars r ++ ';' :: (toDecChars g ++ ';' :: (toDecChars b ++ 'm' :: tail))) := by
    simp [fgSeq, ESC]
  rw [hform]
  show (match parseTriple (toDecChars r ++ ';' :: (toDecChars g ++ ';' ::
      (toDecChars b ++ 'm' :: tail))) with
    | some ((a, b, c), rest) => some (AnsiAct.setFg a b c, rest)
    | none => none) = _
  rw [parseTriple_digits tail (toDecChars_ne_nil r) (toDecChars_digits r)
    (toDecChars_ne_nil g) (toDecChars_digits g)
    (toDecChars_ne_nil b) (toDecChars_digits b)]
  simp only [digitsVal_toDecChars]

theorem matchAnsiPy_reset (tail : List Char) :
    matchAnsiPy (resetSeq ++ tail) = some (.reset, tail) := rfl

theorem matchAnsiPy_not_esc {c : Char} (hc : ¬c = '\x1b') (t : List Char) :
    matchAnsiPy (c :: t) = none := by
  unfold matchAnsiPy
  split
  · rename_i heq
    injection heq with h1 _
    exact absurd h1 hc
  · rename_i heq
    injection heq with h1 _
    exact absurd h1 hc
  · rename_i heq
    injection heq with h1 _
    exact absurd h1 hc
  · rfl

theorem parseTriple_shrink {r : List Char} {v : ℕ × ℕ × ℕ} {rest : List Char}
    (h : parseTriple r = some (v, rest)) : rest.length ≤ r.length := by
  unfold parseTriple at h
  dsimp only at h
  split at h
  · exact absurd h (by simp)
  · split at h
    · exact absurd h (by simp)
    · split at h
      · exact absurd h (by simp)
      · rw [Option.some.injEq, Prod.mk.injEq] at h
        obtain ⟨-, h2⟩ := h
        rw [← h2]
        simp only [List.length_tail, List.length_drop]
        omega

theorem matchAnsiPy_shrink {l : List Char} {act : AnsiAct} {rest : List Char}
    (h : matchAnsiPy l = some (act, rest)) : rest.length < l.length := by
  unfold matchAnsiPy at h
  split at h
  · rw [Option.some.injEq, Prod.mk.injEq] at h
    obtain ⟨-, h2⟩ := h
    rw [← h2]
    simp only [List.length_cons]
    omega
  · rename_i r
    cases hp : parseTriple r with
    | none => rw [hp] at h; exact absurd h (by simp)
    | some pr =>
      rw [hp] at h
      obtain ⟨v, rest'⟩ := pr
      rw [Option.some.injEq, Prod.mk.injEq] at h
      obtain ⟨-, h2⟩ := h
      have := parseTriple_shrink hp
      rw [← h2]
      simp only [List.length_cons]
      omega
  · rename_i r
    cases hp : parseTriple r with
    | none => rw [hp] at h; exact absurd h (by simp)
    | some pr =>
      rw [hp] at h
      obtain ⟨v, rest'⟩ := pr
      rw [Option.some.injEq, Prod.mk.injEq] at h
      obtain ⟨-, h2⟩ := h
      have := parseTriple_shrink hp
      rw [← h2]
      simp only [List.length_cons]
      omega
  · exact absurd h (by simp)

theorem segmentizeAux_irrel :
    ∀ (n : ℕ) (l : List Char), l.length ≤ n →
      ∀ (f₁ f₂ : ℕ) (fg bg : Option Rgb) (pending : List Char),
      l.length ≤ f₁ → l.length ≤ f₂ →
      segmentizeAux f₁ l fg bg pending = segmentizeAux f₂ l fg bg pending := by
  intro n
  induction n with
  | zero =>
    intro l hl f₁ f₂ fg bg pending h₁ h₂
    have : l = [] := List.eq_nil_of_length_eq_zero (by omega)
    subst this
    cases f₁ <;> cases f₂ <;> rfl
  | succ n ih =>
    intro l hl f₁ f₂ fg bg pending h₁ h₂
    cases l with
    | nil => cases f₁ <;> cases f₂ <;> rfl
    | cons c t =>
      match f₁, f₂, h₁, h₂ with
      | g₁ + 1, g₂ + 1, h₁, h₂ =>
        simp only [segmentizeAux]
        cases hm : matchAnsiPy (c :: t) with
        | some pr =>
          obtain ⟨act, rest⟩ := pr
          have hsh := matchAnsiPy_shrink hm
          simp only [List.length_cons] at *
          congr 1
          apply ih <;> omega
        | none =>
          apply ih <;> simp only [List.length_cons] at * <;> omega

/-- The segment scanner started from an arbitrary state; `ansiSegments l`
is `ansiSegmentsFrom l none none []`. -/
def ansiSegmentsFrom (l : List Char) (fg bg : Option Rgb) (pending : List Char) :
    List (List Char × Option Rgb × Option Rgb) :=
  segmentizeAux l.length l fg bg pending

theorem segmentize_fg (r g b : ℕ) (after : List Char) (fg bg : Option Rgb) :
    ansiSegmentsFrom (fgSeq r g b ++ after) fg bg []
      = ansiSegmentsFrom after (some (r, g, b)) bg [] := by
  unfold ansiSegmentsFrom
  have hlen : (fgSeq r g b ++ after).length
      = (fgSeqHead r g b).length + after.length + 1 := by
    rw [fgSeq_eq_head_m]
    simp
    omega
  rw [hlen]
  have hform : fgSeq r g b ++ after
      = ESC :: '[' :: ('3' :: '8' :: ';' :: '2' :: ';' ::
          ((toDecChars r ++ ';' :: (toDecChars g ++ ';' :: toDecChars b)) ++ 'm' :: after)) := by
    rw [fgSeq_eq_head_m]
    simp [fgSeqHead]
  rw [hform]
  simp only [segmentizeAux]
  rw [show (ESC :: '[' :: ('3' :: '8' :: ';' :: '2' :: ';' ::
      ((toDecChars r ++ ';' :: (toDecChars g ++ ';' :: toDecChars b)) ++ 'm' :: after)) : List Char)
      = fgSeq r g b ++ after from hform.symm,
    matchAnsiPy_fgSeq]
  simp only [applyAnsiAct, if_pos rfl, List.nil_append]
  apply segmentizeAux_irrel ((fgSeqHead r g b).length + after.length) <;> omega

theorem segmentize_draw {c : Char} (hc : ¬c = '\x1b') (t : List Char)
    (fg bg : Option Rgb) (pending : List Char) :
    ansiSegmentsFrom (c :: t) fg bg pending = segmentizeAux t.length t fg bg (c :: pending) := by
  unfold ansiSegmentsFrom
  show segmentizeAux (t.length + 1) (c :: t) fg bg pending = _
  simp only [segmentizeAux]
  rw [matchAnsiPy_not_esc hc]

theorem segmentize_reset (after : List Char) (fg bg : Option Rgb) (pending : List Char) :
    ansiSegmentsFrom (resetSeq ++ after) fg bg pending
      = (if pending = [] then [] else [(pending.reverse, fg, bg)]) ++
          ansiSegmentsFrom after none none [] := by
  unfold ansiSegmentsFrom
  show segmentizeAux (after.length + 3 + 1) (ESC :: '[' :: '0' :: 'm' :: after) fg bg pending = _
  simp only [segmentizeAux]
  rw [show (ESC :: '[' :: '0' :: 'm' :: after : List Char) = resetSeq ++ after from rfl,
    matchAnsiPy_reset]
  simp only [applyAnsiAct]
  congr 1
  apply segmentizeAux_irrel (after.length + 3) <;> omega

theorem segmentize_color_pixel (chars : List Char) (p : Rgb) (rest : List Char)
    (hg : ¬glyphFor chars (avgBrightness p) = ESC) :
    ansiSegmentsFrom (ascii_color_pixel chars p ++ rest) none none []
      = ([glyphFor chars (avgBrightness p)], some p, none) ::
          ansiSegmentsFrom rest none none [] := by
  obtain ⟨r, g, b⟩ := p
  unfold ascii_color_pixel
  rw [List.append_assoc, segmentize_fg, List.cons_append, segmentize_draw hg,
    ← show ansiSegmentsFrom (resetSeq ++ rest) (some (r, g, b)) none
        [glyphFor chars (avgBrightness (r, g, b))]
      = segmentizeAux (resetSeq ++ rest).length (resetSeq ++ rest) (some (r, g, b)) none
        [glyphFor chars (avgBrightness (r, g, b))] from rfl,
    segmentize_reset]
  simp

theorem segmentize_color_line (chars : List Char) (row : List Rgb)
    (hg : ∀ p ∈ row, ¬glyphFor chars (avgBrightness p) = ESC) :
    ansiSegments (ascii_color_line chars row)
      = row.map (fun p => ([glyphFor chars (avgBrightness p)], some p, none)) := by
  have key : ∀ row', (∀ p ∈ row', ¬glyphFor chars (avgBrightness p) = ESC) →
      ansiSegmentsFrom (ascii_color_line chars row') none none []
        = row'.map (fun p => ([glyphFor chars (avgBrightness p)], some p, none)) := by
    intro row'
    induction row' with
    | nil => intro _; rfl
    | cons p t ih =>
      intro hg'
      unfold ascii_color_line
      rw [List.flatMap_cons,
        show (t.flatMap (ascii_color_pixel chars)) = ascii_color_line chars t from rfl,
        segmentize_color_pixel chars p _ (hg' p (by simp)),
        ih (fun q hq => hg' q (by simp [hq]))]
      rfl
  exact key row hg

theorem glyphFor_mem (chars : List Char) (hne : chars ≠ []) (b : ℚ)
    (h0 : 0 ≤ b) (h255 : b ≤ 255) : glyphFor chars b ∈ chars := by
  unfold glyphFor
  rw [List.getD_eq_getElem _ _ (char_idx_lt h0 h255 (length_pos_of_ne_nil hne))]
  exact List.getElem_mem _

/-- C6: every truecolor escape `\033[38;2;R;G;Bm` the converter emits is
recovered exactly by both render paths: the MP4 renderer's parser draws
each glyph with `current_color = (R,G,B)` (before any brightness boost)
and a reset restores white; the web renderer's `ansi_to_html` scanner
wraps each glyph in a segment carrying the same `(R,G,B)`. -/
theorem ansi_truecolor_roundtrip (chars : List Char) (row : List Rgb) (cur : Rgb)
    (hne : chars ≠ []) (hesc : ESC ∉ chars)
    (hb : ∀ p ∈ row, p.1 ≤ 255 ∧ p.2.1 ≤ 255 ∧ p.2.2 ≤ 255) :
    scanLine false (ascii_color_line chars row) (255, 255, 255)
        = row.map (fun p => (glyphFor chars (avgBrightness p), p)) ∧
    parseAnsiCode false resetSeq cur = (255, 255, 255) ∧
    ansiSegments (ascii_color_line chars row)
        = row.map (fun p => ([glyphFor chars (avgBrightness p)], some p, none)) := by
  have hglyph : ∀ p ∈ row, ¬glyphFor chars (avgBrightness p) = ESC := by
    intro p hp hcontra
    apply hesc
    rw [← hcontra]
    apply glyphFor_mem chars hne
    · unfold avgBrightness
      positivity
    · obtain ⟨h1, h2, h3⟩ := hb p hp
      unfold avgBrightness
      have c1 : (p.1 : ℚ) ≤ 255 := by exact_mod_cast h1
      have c2 : (p.2.1 : ℚ) ≤ 255 := by exact_mod_cast h2
      have c3 : (p.2.2 : ℚ) ≤ 255 := by exact_mod_cast h3
      linarith
  exact ⟨scanLine_color_line chars row hglyph, parseAnsiCode_reset false cur,
    segmentize_color_line chars row hglyph⟩

unseal Rat.mul Rat.inv Rat.add Rat.sub Rat.ofScientific in
/-- C6 witness. -/
theorem ansi_truecolor_roundtrip_witness :
    scanLine false (ascii_color_line ['a', 'b'] [((255 : ℕ), (128 : ℕ), (0 : ℕ))]) (255, 255, 255)
        = [((255 : ℕ), (128 : ℕ), (0 : ℕ))].map
            (fun p => (glyphFor ['a', 'b'] (avgBrightness p), p)) ∧
    parseAnsiCode false resetSeq (1, 2, 3) = (255, 255, 255) ∧
    ansiSegments (ascii_color_line ['a', 'b'] [((255 : ℕ), (128 : ℕ), (0 : ℕ))])
        = [((255 : ℕ), (128 : ℕ), (0 : ℕ))].map
            (fun p => ([glyphFor ['a', 'b'] (avgBrightness p)], some p, none)) :=
  ansi_truecolor_roundtrip ['a', 'b'] [(255, 128, 0)] (1, 2, 3)
    (by decide) (by decide) (by decide)

/-! ## C3 — shell-script exporter (`exporter.py`) -/

def b64Alphabet : List Char :=
  "ABCDEFGHIJKLMNOPQRSTUVWXYZabcdefghijklmnopqrstuvwxyz0123456789+/".toList

def b64Char (n : ℕ) : Char := b64Alphabet.getD n 'A'

def b64CharVal (c : Char) : Option ℕ := b64Alphabet.findIdx? (· == c)

/-- Standard base64 of a byte list (`base64.b64encode`). -/
def b64Encode : List ℕ → List Char
  | [] => []
  | [a] => [b64Char (a / 4), b64Char (a % 4 * 16), '=', '=']
  | [a, b] => [b64Char (a / 4), b64Char (a % 4 * 16 + b / 16), b64Char (b % 16 * 4), '=']
  | a :: b :: c :: rest =>
    b64Char (a / 4) :: b64Char (a % 4 * 16 + b / 16) :: b64Char (b % 16 * 4 + c / 64) ::
      b64Char (c % 64) :: b64Encode rest

/-- Standard base64 decoding (`base64.b64decode` on canonical input). -/
def b64Decode : List Char → Option (List ℕ)
  | [] => some []
  | c1 :: c2 :: c3 :: c4 :: rest =>
    match b64CharVal c1, b64CharVal c2 with
    | some v1, some v2 =>
      if c3 = '=' ∧ c4 = '=' ∧ rest = [] then some [v1 * 4 + v2 / 16]
      else if c4 = '=' ∧ rest = [] then
        match b64CharVal c3 with
        | some v3 => some [v1 * 4 + v2 / 16, v2 % 16 * 16 + v3 / 4]
        | none => none
      else
        match b64CharVal c3, b64CharVal c4 with
        | some v3, some v4 =>
          match b64Decode rest with
          | some tl =>
            some ((v1 * 4 + v2 / 16) :: (v2 % 16 * 16 + v3 / 4) :: (v3 % 4 * 64 + v4) :: tl)
          | none => none
        | _, _ => none
    | _, _ => none
  | _ => some []

theorem b64CharVal_b64Char : ∀ n, n < 64 → b64CharVal (b64Char n) = some n := by
  decide

theorem b64Char_ne_eq : ∀ n, n < 64 → b64Char n ≠ '=' := by
  decide

theorem b64Char_ne_nl : ∀ n, n < 64 → b64Char n ≠ '\n' := by
  decide

theorem b64_roundtrip : ∀ (bs : List ℕ), (∀ x ∈ bs, x < 256) →
    b64Decode (b64Encode bs) = some bs := by
  have key : ∀ (n : ℕ) (bs : List ℕ), bs.length ≤ n → (∀ x ∈ bs, x < 256) →
      b64Decode (b64Encode bs) = some bs := by
    intro n
    induction n with
    | zero =>
      intro bs hl _
      have : bs = [] := List.eq_nil_of_length_eq_zero (by omega)
      subst this
      rfl
    | succ n ih =>
      intro bs hl hb
      match bs with
      | [] => rfl
      | [a] =>
        have ha : a < 256 := hb a (by simp)
        show b64Decode [b64Char (a / 4), b64Char (a % 4 * 16), '=', '='] = some [a]
        unfold b64Decode
        rw [b64CharVal_b64Char _ (by omega), b64CharVal_b64Char _ (by omega)]
        dsimp only
        rw [if_pos (by exact ⟨rfl, rfl, rfl⟩)]
        congr 1
        congr 1
        omega
      | [a, b] =>
        have ha : a < 256 := hb a (by simp)
        have hbb : b < 256 := hb b (by simp)
        show b64Decode [b64Char (a / 4), b64Char (a % 4 * 16 + b / 16),
          b64Char (b % 16 * 4), '='] = some [a, b]
        unfold b64Decode
        rw [b64CharVal_b64Char _ (by omega), b64CharVal_b64Char _ (by omega)]
        dsimp only
        rw [if_neg (by
          rintro ⟨h3, -, -⟩
          exact b64Char_ne_eq _ (by omega) h3)]
        rw [if_pos (by exact ⟨rfl, rfl⟩), b64CharVal_b64Char _ (by omega)]
        dsimp only
        congr 1
        congr 1
        · omega
        congr 1
        omega
      | a :: b :: c :: rest =>
        have ha : a < 256 := hb a (by simp)
        have hbb : b < 256 := hb b (by simp)
        have hc : c < 256 := hb c (by simp)
        show b64Decode (b64Char (a / 4) :: b64Char (a % 4 * 16 + b / 16) ::
          b64Char (b % 16 * 4 + c / 64) :: b64Char (c % 64) :: b64Encode rest)
          = some (a :: b :: c :: rest)
        unfold b64Decode
        rw [b64CharVal_b64Char _ (by omega), b64CharVal_b64Char _ (by omega)]
        dsimp only
        rw [if_neg (by
          rintro ⟨h3, -, -⟩
          exact b64Char_ne_eq _ (by omega) h3)]
        rw [if_neg (by
          rintro ⟨h4, -⟩
          exact b64Char_ne_eq _ (by omega) h4)]
        rw [b64CharVal_b64Char _ (by omega), b64CharVal_b64Char _ (by omega)]
        dsimp only
        rw [ih rest (by simp at hl; omega) (fun x hx => hb x (by simp [hx]))]
        simp only [Option.some.injEq, List.cons.injEq]
        exact ⟨by omega, by omega, by omega, trivial⟩
  intro bs hb
  exact key bs.length bs le_rfl hb

theorem b64Encode_no_newline : ∀ (bs : List ℕ), (∀ x ∈ bs, x < 256) →
    ∀ c ∈ b64Encode bs, c ≠ '\n' := by
  have key : ∀ (n : ℕ) (bs : List ℕ), bs.length ≤ n → (∀ x ∈ bs, x < 256) →
      ∀ c ∈ b64Encode bs, c ≠ '\n' := by
    intro n
    induction n with
    | zero =>
      intro bs hl _
      have : bs = [] := List.eq_nil_of_length_eq_zero (by omega)
      subst this
      simp [b64Encode]
    | succ n ih =>
      intro bs hl hb c hc
      match bs with
      | [] => simp [b64Encode] at hc
      | [a] =>
        have ha : a < 256 := hb a (by simp)
        simp only [b64Encode, List.mem_cons, List.not_mem_nil, or_false] at hc
        rcases hc with rfl | rfl | rfl | rfl
        · exact b64Char_ne_nl _ (by omega)
        · exact b64Char_ne_nl _ (by omega)
        · decide
        · decide
      | [a, b] =>
        have ha : a < 256 := hb a (by simp)
        have hbb : b < 256 := hb b (by simp)
        simp only [b64Encode, List.mem_cons, List.not_mem_nil, or_false] at hc
        rcases hc with rfl | rfl | rfl | rfl
        · exact b64Char_ne_nl _ (by omega)
        · exact b64Char_ne_nl _ (by omega)
        · exact b64Char_ne_nl _ (by omega)
        · decide
      | a :: b :: c' :: rest =>
        have ha : a < 256 := hb a (by simp)
        have hbb : b < 256 := hb b (by simp)
        have hc' : c' < 256 := hb c' (by simp)
        simp only [b64Encode, List.mem_cons] at hc
        rcases hc with rfl | rfl | rfl | rfl | hc
        · exact b64Char_ne_nl _ (by omega)
        · exact b64Char_ne_nl _ (by omega)
        · exact b64Char_ne_nl _ (by omega)
        · exact b64Char_ne_nl _ (by omega)
        · exact ih rest (by simp at hl; omega) (fun x hx => hb x (by simp [hx])) c hc
  intro bs hb
  exact key bs.length bs le_rfl hb

/-- Python `str.replace` (all non-overlapping occurrences, left to right),
fuel-based for kernel evaluation; the fuel is the string length, enough
because every step consumes at least one character (pattern nonempty). -/
def replaceAllAux : ℕ → List Char → List Char → List Char → List Char
  | 0, s, _, _ => s
  | fuel + 1, s, pat, rep =>
    match s with
    | [] => []
    | c :: t =>
      if pat.isPrefixOf (c :: t) then
        rep ++ replaceAllAux fuel ((c :: t).drop pat.length) pat rep
      else c :: replaceAllAux fuel t pat rep

def replaceAll (s pat rep : List Char) : List Char := replaceAllAux s.length s pat rep

theorem replaceAllAux_no_occur (pat rep : List Char) :
    ∀ (fuel : ℕ) (s : List Char), containsSub pat s = false →
      replaceAllAux fuel s pat rep = s := by
  intro fuel
  induction fuel with
  | zero => intro s _; rfl
  | succ n ih =>
    intro s hs
    match s with
    | [] => rfl
    | c :: t =>
      simp only [containsSub, Bool.or_eq_false_iff] at hs
      show (if pat.isPrefixOf (c :: t) then _ else c :: replaceAllAux n t pat rep) = c :: t
      rw [if_neg (by simp [hs.1]), ih t hs.2]

theorem replaceAll_no_occur (pat rep s : List Char) (h : containsSub pat s = false) :
    replaceAll s pat rep = s :=
  replaceAllAux_no_occur pat rep s.length s h

theorem replaceAllAux_single (pat rep post : List Char) (hpat : pat ≠ [])
    (hpost : containsSub pat post = false) :
    ∀ (pre : List Char) (fuel : ℕ), (pre ++ pat ++ post).length ≤ fuel →
      (∀ j, j < pre.length → pat.isPrefixOf ((pre ++ pat ++ post).drop j) = false) →
      replaceAllAux fuel (pre ++ pat ++ post) pat rep = pre ++ rep ++ post := by
  intro pre
  induction pre with
  | nil =>
    intro fuel hfuel _
    obtain ⟨p, ps, rfl⟩ : ∃ p ps, pat = p :: ps := by
      cases pat with
      | nil => exact absurd rfl hpat
      | cons p ps => exact ⟨p, ps, rfl⟩
    match fuel with
    | 0 => simp at hfuel
    | n + 1 =>
      simp only [List.nil_append]
      show (if (p :: ps).isPrefixOf ((p :: ps) ++ post) then
          rep ++ replaceAllAux n (((p :: ps) ++ post).drop (p :: ps).length) (p :: ps) rep
        else _) = rep ++ post
      rw [if_pos (by rw [List.isPrefixOf_iff_prefix]; exact List.prefix_append _ _)]
      rw [List.drop_left _ _, replaceAllAux_no_occur _ _ _ _ hpost]
  | cons c pre' ih =>
    intro fuel hfuel hpre
    match fuel with
    | 0 => simp at hfuel
    | n + 1 =>
      have hne : pat.isPrefixOf (c :: (pre' ++ pat ++ post)) = false := by
        have := hpre 0 (by simp)
        simpa using this
      show (if pat.isPrefixOf (c :: (pre' ++ pat ++ post)) then _
        else c :: replaceAllAux n (pre' ++ pat ++ post) pat rep) = (c :: pre') ++ rep ++ post
      rw [if_neg (by rw [hne]; simp)]
      rw [ih n (by simp at hfuel ⊢; omega) (by
        intro j hj
        have := hpre (j + 1) (by simp; omega)
        simpa using this)]
      simp

theorem replaceAll_single (pat rep pre post : List Char) (hpat : pat ≠ [])
    (hpre : ∀ j, j < pre.length → pat.isPrefixOf ((pre ++ pat ++ post).drop j) = false)
    (hpost : containsSub pat post = false) :
    replaceAll (pre ++ pat ++ post) pat rep = pre ++ rep ++ post :=
  replaceAllAux_single pat rep post hpat hpost pre _ le_rfl hpre

/-- The `---FRAME---` separator line written before each frame payload. -/
def frameMarker : List Char := "---FRAME---".toList

/-- The three `template.replace` calls of `export` (`exporter.py`):
`ORIG_FPS=12 -> ORIG_FPS={fps}`, `ORIG_CRT=0 -> ORIG_CRT={1 if crt else 0}`,
`TOTAL_FRAMES=0 -> TOTAL_FRAMES={len(frames)}`. -/
def substTemplate (template : List Char) (fps : ℕ) (crt : Bool) (n : ℕ) : List Char :=
  replaceAll
    (replaceAll
      (replaceAll template "ORIG_FPS=12".toList ("ORIG_FPS=".toList ++ toDecChars fps))
      "ORIG_CRT=0".toList ("ORIG_CRT=".toList ++ [if crt then '1' else '0']))
    "TOTAL_FRAMES=0".toList ("TOTAL_FRAMES=".toList ++ toDecChars n)

/-- The per-frame writes of the export loop: `"---FRAME---\n"`, then the
base64 of the gzipped UTF-8 frame, then `"\n"`.  `gz` stands for
`gzip.compress (frame.encode "utf-8")`, kept opaque. -/
def frameBlocks (gz : List Char → List ℕ) : List (List Char) → List Char
  | [] => []
  | f :: fs => frameMarker ++ '\n' :: (b64Encode (gz f) ++ '\n' :: frameBlocks gz fs)

/-- Everything `export` writes to the output file: the substituted template,
a newline, then the frame blocks. -/
def exportScript (template : List Char) (frames : List (List Char)) (fps : ℕ)
    (crt : Bool) (gz : List Char → List ℕ) : List Char :=
  substTemplate template fps crt frames.length ++ '\n' :: frameBlocks gz frames

/-- The payload lines of the written script: each line equal to
`---FRAME---` announces the next line as a frame payload (the reading rule
of the embedded player loop). -/
def extractPayloads : List (List Char) → List (List Char)
  | [] => []
  | [_] => []
  | l :: p :: rest =>
    if l = frameMarker then p :: extractPayloads rest
    else extractPayloads (p :: rest)

theorem extractPayloads_append_skip :
    ∀ (hs X : List (List Char)), (∀ l ∈ hs, l ≠ frameMarker) →
      extractPayloads (hs ++ X) = extractPayloads X := by
  intro hs
  induction hs with
  | nil => intro X _; rfl
  | cons l hs' ih =>
    intro X h
    rw [List.cons_append]
    match h' : hs' ++ X with
    | [] =>
      obtain ⟨rfl, rfl⟩ := List.append_eq_nil.mp h'
      rfl
    | p :: rest =>
      show extractPayloads (l :: p :: rest) = extractPayloads X
      simp only [extractPayloads]
      rw [if_neg (h l (by simp)), ← h', ih X (fun x hx => h x (by simp [hx]))]

theorem extract_split_frameBlocks (gz : List Char → List ℕ) :
    ∀ (frames : List (List Char)), (∀ f ∈ frames, ∀ x ∈ gz f, x < 256) →
      extractPayloads (splitOnC '\n' (frameBlocks gz frames))
        = frames.map (fun f => b64Encode (gz f)) := by
  intro frames
  induction frames with
  | nil =>
    intro _
    rfl
  | cons f fs ih =>
    intro hb
    show extractPayloads (splitOnC '\n'
        (frameMarker ++ '\n' :: (b64Encode (gz f) ++ '\n' :: frameBlocks gz fs))) = _
    rw [splitOnC_append_sep, splitOnC_append_sep]
    rw [splitOnC_sepFree (l := frameMarker) (by decide)]
    rw [splitOnC_sepFree (l := b64Encode (gz f))
      (b64Encode_no_newline (gz f) (hb f (by simp)))]
    show extractPayloads (frameMarker :: b64Encode (gz f) :: splitOnC '\n' (frameBlocks gz fs))
      = b64Encode (gz f) :: fs.map (fun f => b64Encode (gz f))
    simp only [extractPayloads]
    rw [if_pos trivial, ih (fun x hx => hb x (by simp [hx]))]

/-- C3: Script export round-trip (`export`, `exporter.py`).  Splitting the
written script on newlines, the lines following `---FRAME---` markers are,
in input order, exactly the base64 encodings of the gzipped UTF-8 frames;
base64-decoding the i-th payload and gunzipping recovers the i-th frame
string exactly (with `gz` the opaque `gzip.compress ∘ encode utf-8` and
`gunzip` its opaque inverse); and the template placeholder `TOTAL_FRAMES=0`
is replaced by `TOTAL_FRAMES=<len(frames)>` (hypotheses: the placeholder
occurs exactly once in the template after the first two substitutions, and
no header line of the substituted template equals the marker). -/
theorem script_export_roundtrip
    (template : List Char) (frames : List (List Char)) (fps : ℕ) (crt : Bool)
    (gz : List Char → List ℕ) (gunzip : List ℕ → Option (List Char))
    (pre post : List Char) (i : ℕ)
    (hbytes : ∀ f ∈ frames, ∀ x ∈ gz f, x < 256)
    (hgz : ∀ f ∈ frames, gunzip (gz f) = some f)
    (hhdr : ∀ l ∈ splitOnC '\n' (substTemplate template fps crt frames.length),
      l ≠ frameMarker)
    (htmpl : replaceAll
        (replaceAll template "ORIG_FPS=12".toList ("ORIG_FPS=".toList ++ toDecChars fps))
        "ORIG_CRT=0".toList ("ORIG_CRT=".toList ++ [if crt then '1' else '0'])
      = pre ++ "TOTAL_FRAMES=0".toList ++ post)
    (hpre : ∀ j, j < pre.length →
      ("TOTAL_FRAMES=0".toList).isPrefixOf
        ((pre ++ "TOTAL_FRAMES=0".toList ++ post).drop j) = false)
    (hpost : containsSub "TOTAL_FRAMES=0".toList post = false)
    (hi : i < frames.length) :
    extractPayloads (splitOnC '\n' (exportScript template frames fps crt gz))
        = frames.map (fun f => b64Encode (gz f)) ∧
      (b64Decode (b64Encode (gz (frames.get ⟨i, hi⟩)))).bind gunzip
        = some (frames.get ⟨i, hi⟩) ∧
      substTemplate template fps crt frames.length
        = pre ++ ("TOTAL_FRAMES=".toList ++ toDecChars frames.length) ++ post := by
  refine ⟨?_, ?_, ?_⟩
  · show extractPayloads (splitOnC '\n'
      (substTemplate template fps crt frames.length ++ '\n' :: frameBlocks gz frames)) = _
    rw [splitOnC_append_sep, extractPayloads_append_skip _ _ hhdr,
      extract_split_frameBlocks gz frames hbytes]
  · have hmem : frames.get ⟨i, hi⟩ ∈ frames := List.get_mem frames i hi
    rw [b64_roundtrip _ (hbytes _ hmem)]
    exact hgz _ hmem
  · show replaceAll _ "TOTAL_FRAMES=0".toList _ = _
    rw [htmpl]
    exact replaceAll_single _ _ _ _ (by decide) hpre hpost

theorem script_export_roundtrip_witness :
    extractPayloads (splitOnC '\n' (exportScript
        ("#!/bin/sh\nORIG_FPS=12\nORIG_CRT=0\nTOTAL_FRAMES=0\nplay".toList)
        [['h', 'i'], ['o', 'k']] 24 true (fun s => s.map Char.toNat)))
      = [['h', 'i'], ['o', 'k']].map (fun f => b64Encode (f.map Char.toNat)) ∧
    (b64Decode (b64Encode (([['h', 'i'], ['o', 'k']].get
          ⟨1, by decide⟩).map Char.toNat))).bind
        (fun bs => some (bs.map Char.ofNat))
      = some ([['h', 'i'], ['o', 'k']].get ⟨1, by decide⟩) ∧
    substTemplate ("#!/bin/sh\nORIG_FPS=12\nORIG_CRT=0\nTOTAL_FRAMES=0\nplay".toList)
        24 true 2
      = "#!/bin/sh\nORIG_FPS=24\nORIG_CRT=1\n".toList
          ++ ("TOTAL_FRAMES=".toList ++ toDecChars 2) ++ "\nplay".toList :=
  script_export_roundtrip
    ("#!/bin/sh\nORIG_FPS=12\nORIG_CRT=0\nTOTAL_FRAMES=0\nplay".toList)
    [['h', 'i'], ['o', 'k']] 24 true (fun s => s.map Char.toNat)
    (fun bs => some (bs.map Char.ofNat))
    ("#!/bin/sh\nORIG_FPS=24\nORIG_CRT=1\n".toList) ("\nplay".toList) 1
    (by decide) (by decide) (by decide) (by decide) (by decide) (by decide) (by decide)

end V2A
